import Mathlib

/-!
# Verification of the ip-wiki IP address utility library

A shallow embedding of `src/IP.js` (ip-wiki v0.4.3). Strings are modelled as
`List Char`; JavaScript's `null` results are modelled with `Option`; JS numbers
arising here are non-negative integers and are modelled as `Nat`.

The static methods of the abstract class `IPBase` and of the static class
`IPUtil` are embedded as functions in the namespaces `IPBase` and `IPUtil`.
Recursive helpers that are not structurally recursive in the JS control flow
are given an explicit fuel argument (always instantiated so that the fuel never
runs out) so that every definition is executable by the kernel.
-/

namespace IpWiki

/-- Strings are modelled as lists of characters. -/
abbrev Str := List Char

/-! ## Character classes

All character predicates are phrased on `Char.toNat` code points so that
disjointness facts are provable by `omega`. -/

/-- ASCII decimal digit, the `\d` class of the JS regexes. -/
def isDigit (c : Char) : Bool :=
  decide (48 ≤ c.toNat ∧ c.toNat ≤ 57)

/-- ASCII hexadecimal digit. The source's `\p{Hex_Digit}` class additionally
contains the fullwidth variants U+FF10–FF19, U+FF21–FF26, U+FF41–FF46; those
only occur in strings that the claims under study never quantify over (and any
string built from the characters used in this development is unaffected), so
the embedding restricts the class to ASCII. -/
def isHexDigit (c : Char) : Bool :=
  decide ((48 ≤ c.toNat ∧ c.toNat ≤ 57) ∨ (97 ≤ c.toNat ∧ c.toNat ≤ 102) ∨
    (65 ≤ c.toNat ∧ c.toNat ≤ 70))

/-- Character class `[\p{Hex_Digit}:]` of the IPv6 regex (ASCII fragment). -/
def isHexOrColon (c : Char) : Bool :=
  isHexDigit c || c == ':'

/-- The Unicode bidi characters removed by `IPBase.clean`:
`[‎‏‪-‮]`. -/
def isBidi (c : Char) : Bool :=
  decide (c.toNat = 0x200E ∨ c.toNat = 0x200F ∨ (0x202A ≤ c.toNat ∧ c.toNat ≤ 0x202E))

/-- The whitespace characters stripped by JavaScript's `String.prototype.trim`. -/
def isWS (c : Char) : Bool :=
  decide (c.toNat = 9 ∨ c.toNat = 10 ∨ c.toNat = 11 ∨ c.toNat = 12 ∨ c.toNat = 13 ∨
    c.toNat = 32 ∨ c.toNat = 160 ∨ c.toNat = 0x1680 ∨
    (0x2000 ≤ c.toNat ∧ c.toNat ≤ 0x200A) ∨ c.toNat = 0x2028 ∨ c.toNat = 0x2029 ∨
    c.toNat = 0x202F ∨ c.toNat = 0x205F ∨ c.toNat = 0x3000 ∨ c.toNat = 0xFEFF)

/-- Numeric value of an ASCII decimal digit. -/
def digitVal (c : Char) : Nat := c.toNat - 48

/-- Numeric value of an ASCII hexadecimal digit (as used by `parseInt(_, 16)`). -/
def hexDigitVal (c : Char) : Nat :=
  if 48 ≤ c.toNat ∧ c.toNat ≤ 57 then c.toNat - 48
  else if 97 ≤ c.toNat ∧ c.toNat ≤ 102 then c.toNat - 87
  else if 65 ≤ c.toNat ∧ c.toNat ≤ 70 then c.toNat - 55
  else 0

/-- The digit characters produced by JavaScript's `Number.prototype.toString`
(radix ≤ 16, lowercase). -/
def digitChar (d : Nat) : Char :=
  match d with
  | 0 => '0' | 1 => '1' | 2 => '2' | 3 => '3' | 4 => '4'
  | 5 => '5' | 6 => '6' | 7 => '7' | 8 => '8' | 9 => '9'
  | 10 => 'a' | 11 => 'b' | 12 => 'c' | 13 => 'd' | 14 => 'e' | 15 => 'f'
  | _ => '*'

/-! ## Converting numbers to and from digit strings -/

/-- `parseInt(s)` on a non-empty all-digit string. -/
def decVal (s : Str) : Nat :=
  s.foldl (fun acc c => acc * 10 + digitVal c) 0

/-- `parseInt(s, 16)` on a non-empty all-hex-digit string. -/
def hexVal (s : Str) : Nat :=
  s.foldl (fun acc c => acc * 16 + hexDigitVal c) 0

/-- `parseInt(s, 2)` on a string of `'0'`/`'1'` characters. -/
def binToNat (s : Str) : Nat :=
  s.foldl (fun acc c => acc * 2 + (if c = '1' then 1 else 0)) 0

/-- Digit expansion of a positive number, most significant digit first.
The first argument is fuel; `natToBase` always supplies enough. -/
def natToBaseAux (b : Nat) : Nat → Nat → Str
  | 0, _ => []
  | _ + 1, 0 => []
  | fuel + 1, n + 1 => natToBaseAux b fuel ((n + 1) / b) ++ [digitChar ((n + 1) % b)]

/-- JavaScript `Number.prototype.toString(b)`: minimal digits, `"0"` for zero,
lowercase letters. -/
def natToBase (b n : Nat) : Str :=
  if n = 0 then ['0'] else natToBaseAux b n n

/-- `n.toString()` (decimal). -/
def natToDec (n : Nat) : Str := natToBase 10 n

/-- `n.toString(16)` (lowercase hexadecimal). -/
def natToHex (n : Nat) : Str := natToBase 16 n

/-! ## String splitting and joining -/

/-- `s.split(sep)` for a single-character separator, matching JavaScript's
semantics (`"".split(c) = [""]`, `":".split(":") = ["", ""]`, …). -/
def splitOnChar (sep : Char) : Str → List Str
  | [] => [[]]
  | c :: rest =>
    match splitOnChar sep rest with
    | [] => [[]]
    | g :: gs => if c = sep then [] :: g :: gs else (c :: g) :: gs

/-- `arr.join(sep)` for a single-character separator. -/
def joinSep (sep : Char) : List Str → Str
  | [] => []
  | [g] => g
  | g :: g' :: gs => g ++ sep :: joinSep sep (g' :: gs)

/-! ## Substring utilities used by the source's regex operations -/

/-- `/:::/.test(s)`: does `s` contain three consecutive colons? -/
def hasTripleColon : Str → Bool
  | c :: c' :: c'' :: rest =>
    (c == ':' && c' == ':' && c'' == ':') || hasTripleColon (c' :: c'' :: rest)
  | _ => false

/-- Does `s` contain two consecutive colons? (`/::/.test(s)`; used to state
claim C9.) -/
def hasDoubleColon : Str → Bool
  | c :: c' :: rest => (c == ':' && c' == ':') || hasDoubleColon (c' :: rest)
  | _ => false

/-- `(s.match(/::/g) || []).length`: the number of non-overlapping occurrences
of `"::"` found scanning left to right. -/
def doubleColonCount : Str → Nat
  | c :: c' :: rest =>
    if c == ':' && c' == ':' then doubleColonCount rest + 1
    else doubleColonCount (c' :: rest)
  | _ => 0

/-- `s.replace('::', repl)`: replace the first occurrence of `"::"` (if any). -/
def replaceDoubleColon (repl : Str) : Str → Str
  | c :: c' :: rest =>
    if c == ':' && c' == ':' then repl ++ rest
    else c :: replaceDoubleColon repl (c' :: rest)
  | s => s

/-- `s.replace(pat, repl)` for a non-empty literal pattern string: replace the
first occurrence of `pat` (if any). -/
def replaceFirstSub (pat repl : Str) : Str → Str
  | [] => []
  | c :: rest =>
    if pat.isPrefixOf (c :: rest) then repl ++ (c :: rest).drop pat.length
    else c :: replaceFirstSub pat repl rest

/-- `s.replace(/([^:]):$/, '$1')`: drop a trailing colon preceded by a
non-colon character. -/
def stripTrailingColon (s : Str) : Str :=
  match s.reverse with
  | ':' :: c :: rest => if c ≠ ':' then (c :: rest).reverse else s
  | _ => s

/-- Leading number of repetitions of `"0:"` at the head of `s` (the greedy
match length of `(?:0:)*`). -/
def countZeroPairs : Str → Nat
  | c :: c' :: rest => if c == '0' && c' == ':' then countZeroPairs rest + 1 else 0
  | _ => 0

/-- `s.match(/(?:0:){2,}/g)`: all non-overlapping matches, scanning left to
right, each match greedy. Fueled; `zeroMatches` supplies `s.length`. -/
def zeroMatchesAux : Nat → Str → List Str
  | 0, _ => []
  | _ + 1, [] => []
  | fuel + 1, c :: rest =>
    let k := countZeroPairs (c :: rest)
    if 2 ≤ k then
      (c :: rest).take (2 * k) :: zeroMatchesAux fuel ((c :: rest).drop (2 * k))
    else zeroMatchesAux fuel rest

/-- All matches of `(?:0:){2,}` in `s`. -/
def zeroMatches (s : Str) : List Str :=
  zeroMatchesAux s.length s

/-- `s.match(new RegExp('.{w}', 'g')) || []`: consecutive chunks of exactly
`w` characters, any remainder dropped. Fueled; `chunksOf` supplies enough. -/
def chunksOfAux (w : Nat) : Nat → Str → List Str
  | 0, _ => []
  | fuel + 1, s =>
    if s.length < w ∨ w = 0 then []
    else s.take w :: chunksOfAux w fuel (s.drop w)

/-- Split `s` into chunks of exactly `w` characters. -/
def chunksOf (w : Nat) (s : Str) : List Str :=
  chunksOfAux w s.length s

/-- `l.map((el, i) => f(i, el))`: map with index. -/
def mapIdxAux (f : Nat → α → β) : Nat → List α → List β
  | _, [] => []
  | i, a :: l => f i a :: mapIdxAux f (i + 1) l

/-- JavaScript `Array.prototype.map` with the index argument used. -/
def mapWithIndex (f : Nat → α → β) (l : List α) : List β :=
  mapIdxAux f 0 l

/-- JavaScript `Array.prototype.findIndex`, with `none` standing for `-1`. -/
def jsFindIndex (p : α → Bool) : List α → Option Nat
  | [] => none
  | a :: l => if p a then some 0 else (jsFindIndex p l).map (· + 1)

/-! ## The data model (`IP-types.ts`) -/

/-- The return type of `IPBase.parse`. -/
structure Parsed where
  parts : List Nat
  bitLen : Option Nat
  deriving Repr, DecidableEq

/-- The return type of `IPBase.parseRange`: the parsing result forcibly
interpreted as a CIDR. -/
structure RangeObject where
  first : List Nat
  last : List Nat
  bitLen : Nat
  isCidr : Bool
  deriving Repr, DecidableEq

/-- Stringification modes (`mode` unset is the "sanitized" mode). -/
inductive Mode
  | short
  | long
  deriving Repr, DecidableEq

/-- The `StringifyOptions` object. -/
structure StringifyOptions where
  mode : Option Mode := none
  capitalize : Bool := false
  deriving Repr, DecidableEq

/-! ## `IPBase.clean` -/

/-- JavaScript `s.trim()`. -/
def trimWS (s : Str) : Str :=
  ((s.dropWhile fun c => isWS c).reverse.dropWhile fun c => isWS c).reverse

/-- `IPBase.clean`: remove all bidi characters, then trim. -/
def IPBase.clean (s : Str) : Str :=
  trimWS (s.filter fun c => !isBidi c)

/-! ## `IPBase.parse`

The structural regex matches are embedded by splitting on the separator
characters, which is equivalent because the characters admitted inside the
groups (`\d`, hex digits) are disjoint from the separators (`.`, `:`, `/`).
The optional `bitLen` parameter (used only by `IP.newFromRange`) is not
modelled: every call site relevant to the claims passes only the string. -/

/-- The address part of the IPv4 regex `(\d+)\.(\d+)\.(\d+)\.(\d+)`: exactly
four dot-separated non-empty digit groups. -/
def v4Addr (addr : Str) : Option (List Str) :=
  match splitOnChar '.' addr with
  | [g1, g2, g3, g4] =>
    if (g1 ≠ [] ∧ g1.all isDigit) ∧ (g2 ≠ [] ∧ g2.all isDigit) ∧
        (g3 ≠ [] ∧ g3.all isDigit) ∧ (g4 ≠ [] ∧ g4.all isDigit) then
      some [g1, g2, g3, g4]
    else none
  | _ => none

/-- The structural part of `/^(\d+)\.(\d+)\.(\d+)\.(\d+)(?:\/(\d+))?$/`:
the four digit groups and the optional prefix-length digits. -/
def v4Match (s : Str) : Option (List Str × Option Str) :=
  match splitOnChar '/' s with
  | [addr] => (v4Addr addr).map fun gs => (gs, none)
  | [addr, suf] =>
    if suf ≠ [] ∧ suf.all isDigit then (v4Addr addr).map fun gs => (gs, some suf)
    else none
  | _ => none

/-- The structural part of `/^([\p{Hex_Digit}:]+)(?:\/(\d+))?$/u`. -/
def v6Match (s : Str) : Option (Str × Option Str) :=
  match splitOnChar '/' s with
  | [addr] =>
    if addr ≠ [] ∧ addr.all isHexOrColon then some (addr, none) else none
  | [addr, suf] =>
    if (addr ≠ [] ∧ addr.all isHexOrColon) ∧ (suf ≠ [] ∧ suf.all isDigit) then
      some (addr, some suf)
    else none
  | _ => none

/-- The bit-length bound check `!(0 <= bitLen && bitLen <= max)` (negated). -/
def bitLenOk (max : Nat) : Option Nat → Bool
  | none => true
  | some b => decide (b ≤ max)

/-- The IPv4 limb loop: each group must have at most 3 characters and decimal
value at most 255; the first violation aborts the whole parse. -/
def limbsV4 : List Str → Option (List Nat)
  | [] => some []
  | g :: gs =>
    if g.length ≤ 3 ∧ decVal g ≤ 255 then
      (limbsV4 gs).map fun l => decVal g :: l
    else none

/-- The value of an IPv6 group: `el === '' ? 0 : parseInt(el, 16)`. -/
def v6val (el : Str) : Nat :=
  if el.isEmpty then 0 else hexVal el

/-- The IPv6 limb loop: `''` counts as 0; each group must have at most 4
characters and hex value at most `0xffff`. -/
def limbsV6 : List Str → Option (List Nat)
  | [] => some []
  | el :: els =>
    if el.length ≤ 4 ∧ v6val el ≤ 0xffff then
      (limbsV6 els).map fun l => v6val el :: l
    else none

/-- The IPv4 branch of `IPBase.parse` after the structural match. -/
def parseV4 (groups : List Str) (suf : Option Str) : Option Parsed :=
  let bitLen := suf.map decVal
  if bitLenOk 32 bitLen then
    match limbsV4 groups with
    | some parts => some ⟨parts, bitLen⟩
    | none => none
  else none

/-- The body of the IPv6 branch after the regex and guard tests: bit-length
bound, `::` expansion, the 8-group requirement and the limb loop. -/
def parseV6Core (addr : Str) (bitLen : Option Nat) : Option Parsed :=
  if bitLenOk 128 bitLen then
    let parts₀ := splitOnChar ':' addr
    let parts₁ :=
      if parts₀.length < 7 then
        splitOnChar ':' (replaceDoubleColon (List.replicate (10 - parts₀.length) ':') addr)
      else parts₀
    if parts₁.length = 8 then
      match limbsV6 parts₁ with
      | some parts => some ⟨parts, bitLen⟩
      | none => none
    else none
  else none

/-- The IPv6 branch of `IPBase.parse`. `s` is the full cleaned string (the
`:::` and `::`-count guards are tested on it); the address part and optional
suffix come from the structural match. -/
def parseV6 (s : Str) : Option Parsed :=
  match v6Match s with
  | none => none
  | some (addr, suf) =>
    if hasTripleColon s = true ∨ ¬ doubleColonCount s < 2 then none
    else parseV6Core addr (suf.map decVal)

/-- `IPBase.parse`: clean, then try the IPv4 shape, else the IPv6 shape.
(Committing to the IPv4 branch whenever its regex matches is faithful: a
string matching the IPv4 regex contains dots and can never match the IPv6
regex.) -/
def IPBase.parse (ipStr : Str) : Option Parsed :=
  let s := IPBase.clean ipStr
  match v4Match s with
  | some (groups, suf) => parseV4 groups suf
  | none => parseV6 s

/-! ## `IPBase.parseRange` -/

/-- The netmask limbs: the `'1'.repeat(bitLen) + '0'.repeat(L^2*2 - bitLen)`
binary string, chopped into chunks of `L*2` characters, each parsed base 2. -/
def netMaskParts (L bl : Nat) : List Nat :=
  (chunksOf (L * 2) (List.replicate bl '1' ++ List.replicate (L * L * 2 - bl) '0')).map binToNat

/-- `IPBase.parseRange`. The JS code throws when `parts.length` is neither 4
nor 8; that situation is unreachable from `parse` and the embedding is total.
Out-of-range limb indices into the netmask arrays (`undefined` in JS, making
`el & undefined = 0` and `el | undefined = el`) are modelled by `getD _ 0`,
which agrees on both operations. -/
def IPBase.parseRange (parts : List Nat) (bitLen : Option Nat) : RangeObject :=
  match bitLen with
  | none =>
    { first := parts, last := parts,
      bitLen := if parts.length = 4 then 32 else 128, isCidr := false }
  | some bl =>
    let nm := netMaskParts parts.length bl
    let first := mapWithIndex (fun i el => el &&& nm.getD i 0) parts
    let high := if parts.length = 4 then 255 else 0xffff
    let invNm := nm.map fun el => el ^^^ high
    let last := mapWithIndex (fun i el => el ||| invNm.getD i 0) first
    { first := first, last := last, bitLen := bl, isCidr := true }

/-! ## `IPBase.stringify` -/

/-- `IPBase.modCase`. -/
def IPBase.modCase (s : Str) (upper : Bool) : Str :=
  if upper then s.map Char.toUpper else s

/-- `IPBase.stringify`. -/
def IPBase.stringify (decimals : List Nat) (suffix : Str) (options : StringifyOptions) : Str :=
  let version : Nat := if decimals.length = 4 then 4 else 6
  let delimiter : Char := if version = 4 then '.' else ':'
  let parts : List Str :=
    if version = 6 then decimals.map natToHex else decimals.map natToDec
  if options.mode = some Mode.short ∧ version = 6 then
    let ret := joinSep delimiter parts ++ [':']
    match zeroMatches ret with
    | [] => IPBase.modCase (ret ++ suffix) options.capitalize
    | z :: zs =>
      let longest := zs.foldl (fun a b => if a.length > b.length then a else b) z
      let ret₁ := stripTrailingColon
        (replaceFirstSub [':', ':', ':'] [':', ':'] (replaceFirstSub longest [':', ':'] ret))
      IPBase.modCase (ret₁ ++ suffix) options.capitalize
  else if options.mode = some Mode.long then
    let padded := parts.map fun el =>
      List.replicate ((if version = 4 then 3 else 4) - el.length) '0' ++ el
    IPBase.modCase (joinSep delimiter padded ++ suffix) options.capitalize
  else
    IPBase.modCase (joinSep delimiter parts ++ suffix) options.capitalize

/-! ## Derived operations of `IPBase` -/

/-- The suffix `bitLen !== null ? '/' + bitLen : ''`. -/
def suffixStr : Option Nat → Str
  | some b => '/' :: natToDec b
  | none => []

/-- `IPBase.parseAndStringify`. The `conditionPredicate` parameter is not
modelled: all operations studied by the claims invoke it absent. -/
def IPBase.parseAndStringify (ipStr : Str) (options : StringifyOptions) : Option Str :=
  match IPBase.parse ipStr with
  | none => none
  | some p =>
    let first := (IPBase.parseRange p.parts p.bitLen).first
    some (IPBase.stringify first (suffixStr p.bitLen) options)

/-- `IPBase.getRangeObject` on a string input (`IP` instances always carry a
range produced by the same pipeline, so the string case is the general one). -/
def IPBase.getRangeObject (ip : Str) : Option RangeObject :=
  match IPBase.parse ip with
  | none => none
  | some p => some (IPBase.parseRange p.parts p.bitLen)

/-- The two reachable values of the `comparator` parameter of
`IPBase.compareRanges` (any other value throws and is unreachable from the
public API). -/
inductive Comparator
  | lt
  | gt
  deriving Repr, DecidableEq

/-- The body of `IPBase.compareRanges` once both ranges are in hand. -/
def compareRangesCore (range1 range2 : RangeObject) (comparator : Comparator) : Option Bool :=
  let len := range1.first.length
  if ¬ ([range1.last, range2.first, range2.last].all fun l => l.length == len) then
    some false
  else
    let broader := match comparator with | .lt => range2 | .gt => range1
    let narrower := match comparator with | .lt => range1 | .gt => range2
    some ((List.range len).all fun i =>
      broader.first.getD i 0 ≤ narrower.first.getD i 0 &&
      narrower.last.getD i 0 ≤ broader.last.getD i 0)

/-- `IPBase.compareRanges`. -/
def IPBase.compareRanges (ip1 : RangeObject) (ip2 : Str) (comparator : Comparator) : Option Bool :=
  match IPBase.getRangeObject ip2 with
  | none => none
  | some range2 => compareRangesCore ip1 range2 comparator

/-- The body of `IPBase.checkEquality` once both ranges are in hand.
The indexed `every` of the source runs over the indices of `ip1.first`. -/
def checkEqualityCore (ip1 ip2 : RangeObject) : Option Bool :=
  if ip1.first.length ≠ ip2.first.length ∨ ip1.bitLen ≠ ip2.bitLen then
    some false
  else
    some ((List.range ip1.first.length).all fun i =>
      ip1.first.getD i 0 == ip2.first.getD i 0)

/-- `IPBase.checkEquality`. -/
def IPBase.checkEquality (ipObj : RangeObject) (ipStr : Str) : Option Bool :=
  match IPBase.getRangeObject ipStr with
  | none => none
  | some ip2 => checkEqualityCore ipObj ip2

/-! ## The `IPUtil` static methods used by the claims -/

/-- `IPUtil.sanitize` (the `capitalize` and `conditionPredicate` parameters
default to absent in every use the claims quantify over). -/
def IPUtil.sanitize (ipStr : Str) : Option Str :=
  IPBase.parseAndStringify ipStr { capitalize := false }

/-- `IPUtil.abbreviate`. -/
def IPUtil.abbreviate (ipStr : Str) : Option Str :=
  IPBase.parseAndStringify ipStr { mode := some Mode.short, capitalize := false }

/-- `IPUtil.isInRange`. -/
def IPUtil.isInRange (ipStr cidrStr : Str) : Option Bool :=
  match IPBase.getRangeObject ipStr with
  | none => none
  | some ip => IPBase.compareRanges ip cidrStr .lt

/-- `IPUtil.isInAnyRange`. The outer `none` is JS `null`; the inner `none` is
JS `-1` (no match). -/
def IPUtil.isInAnyRange (ipStr : Str) (cidrArr : List Str) : Option (Option Nat) :=
  match IPBase.getRangeObject ipStr with
  | none => none
  | some ip =>
    some (jsFindIndex (fun cidr => (IPBase.compareRanges ip cidr .lt).getD false) cidrArr)

/-- `IPUtil.isInAllRanges`. The collection argument is `Option (List Str)`,
with `none` standing for a JS value that is not an array. -/
def IPUtil.isInAllRanges (ipStr : Str) (cidrArr : Option (List Str)) : Option Bool :=
  match cidrArr with
  | none => none
  | some arr =>
    if arr.isEmpty then none
    else
      match IPBase.getRangeObject ipStr with
      | none => none
      | some ip =>
        some (arr.all fun cidr => (IPBase.compareRanges ip cidr .lt).getD false)

/-- `IPUtil.contains`. -/
def IPUtil.contains (cidrStr ipStr : Str) : Option Bool :=
  match IPBase.getRangeObject cidrStr with
  | none => none
  | some cidr => IPBase.compareRanges cidr ipStr .gt

/-- `IPUtil.containsAny`. -/
def IPUtil.containsAny (cidrStr : Str) (ipArr : List Str) : Option (Option Nat) :=
  match IPBase.getRangeObject cidrStr with
  | none => none
  | some cidr =>
    some (jsFindIndex (fun ip => (IPBase.compareRanges cidr ip .gt).getD false) ipArr)

/-- `IPUtil.containsAll`. -/
def IPUtil.containsAll (cidrStr : Str) (ipArr : Option (List Str)) : Option Bool :=
  match ipArr with
  | none => none
  | some arr =>
    if arr.isEmpty then none
    else
      match IPBase.getRangeObject cidrStr with
      | none => none
      | some cidr =>
        some (arr.all fun ip => (IPBase.compareRanges cidr ip .gt).getD false)

/-- `IPUtil.equals`. -/
def IPUtil.equals (ipStr1 ipStr2 : Str) : Option Bool :=
  match IPBase.getRangeObject ipStr1 with
  | none => none
  | some ip1 => IPBase.checkEquality ip1 ipStr2

/-- `IPUtil.equalsAny`. -/
def IPUtil.equalsAny (ipStr : Str) (ipArr : List Str) : Option (Option Nat) :=
  match IPBase.getRangeObject ipStr with
  | none => none
  | some ip1 =>
    some (jsFindIndex (fun ip2 => (IPBase.checkEquality ip1 ip2).getD false) ipArr)

/-- `IPUtil.equalsAll`. -/
def IPUtil.equalsAll (ipStr : Str) (ipArr : Option (List Str)) : Option Bool :=
  match ipArr with
  | none => none
  | some arr =>
    if arr.isEmpty then none
    else
      match IPBase.getRangeObject ipStr with
      | none => none
      | some ip1 =>
        some (arr.all fun ip2 => (IPBase.checkEquality ip1 ip2).getD false)

/-! ## Lemmas: digit characters -/

theorem digitVal_digitChar : ∀ d < 10, digitVal (digitChar d) = d := by decide

theorem hexDigitVal_digitChar : ∀ d < 16, hexDigitVal (digitChar d) = d := by decide

theorem isDigit_digitChar : ∀ d < 10, isDigit (digitChar d) = true := by decide

theorem isHexDigit_digitChar : ∀ d < 16, isHexDigit (digitChar d) = true := by decide

/-- The characters appearing in any canonical rendering: hex digits and the
three separators. -/
def isPlain (c : Char) : Bool :=
  isHexDigit c || c == '.' || c == ':' || c == '/'

theorem isPlain_not_ws {c : Char} (h : isPlain c = true) : isWS c = false := by
  simp only [isPlain, isHexDigit, Bool.or_eq_true, beq_iff_eq, decide_eq_true_eq] at h
  simp only [isWS, decide_eq_false_iff_not]
  have h46 : ('.' : Char).toNat = 46 := rfl
  have h58 : (':' : Char).toNat = 58 := rfl
  have h47 : ('/' : Char).toNat = 47 := rfl
  rcases h with ((h | h) | h) | h
  · omega
  · rw [h, h46]; omega
  · rw [h, h58]; omega
  · rw [h, h47]; omega

theorem isPlain_not_bidi {c : Char} (h : isPlain c = true) : isBidi c = false := by
  simp only [isPlain, isHexDigit, Bool.or_eq_true, beq_iff_eq, decide_eq_true_eq] at h
  simp only [isBidi, decide_eq_false_iff_not]
  have h46 : ('.' : Char).toNat = 46 := rfl
  have h58 : (':' : Char).toNat = 58 := rfl
  have h47 : ('/' : Char).toNat = 47 := rfl
  rcases h with ((h | h) | h) | h
  · omega
  · rw [h, h46]; omega
  · rw [h, h58]; omega
  · rw [h, h47]; omega

theorem isPlain_of_isDigit {c : Char} (h : isDigit c = true) : isPlain c = true := by
  simp only [isDigit, decide_eq_true_eq] at h
  simp only [isPlain, isHexDigit, Bool.or_eq_true, decide_eq_true_eq]
  exact Or.inl (Or.inl (Or.inl (Or.inl h)))

theorem isPlain_of_isHexDigit {c : Char} (h : isHexDigit c = true) : isPlain c = true := by
  simp only [isPlain, Bool.or_eq_true]
  exact Or.inl (Or.inl (Or.inl h))

theorem isHexDigit_of_isDigit {c : Char} (h : isDigit c = true) : isHexDigit c = true := by
  simp only [isDigit, decide_eq_true_eq] at h
  simp only [isHexDigit, decide_eq_true_eq]
  exact Or.inl h

/-! ## Lemmas: `natToBase` -/

theorem natToBaseAux_foldl (b : Nat) (dval : Char → Nat) (hb : 2 ≤ b)
    (hdig : ∀ d < b, dval (digitChar d) = d) :
    ∀ fuel n acc, n ≤ fuel →
      (natToBaseAux b fuel n).foldl (fun a c => a * b + dval c) acc =
        acc * b ^ (natToBaseAux b fuel n).length + n := by
  intro fuel
  induction fuel with
  | zero =>
    intro n acc hn
    interval_cases n
    simp [natToBaseAux]
  | succ fuel ih =>
    intro n acc hn
    match n with
    | 0 => simp [natToBaseAux]
    | n + 1 =>
      have hlt : (n + 1) / b < n + 1 := Nat.div_lt_self (by omega) (by omega)
      have hdiv : (n + 1) / b ≤ fuel := by omega
      simp only [natToBaseAux, List.foldl_append, List.foldl_cons, List.foldl_nil,
        List.length_append, List.length_cons, List.length_nil]
      rw [ih _ acc hdiv, hdig _ (Nat.mod_lt _ (by omega))]
      have hmod := Nat.div_add_mod (n + 1) b
      calc (acc * b ^ (natToBaseAux b fuel ((n + 1) / b)).length + (n + 1) / b) * b + (n + 1) % b
          = acc * (b ^ (natToBaseAux b fuel ((n + 1) / b)).length * b) +
            (b * ((n + 1) / b) + (n + 1) % b) := by ring
        _ = acc * b ^ ((natToBaseAux b fuel ((n + 1) / b)).length + 1) + (n + 1) := by
            rw [pow_succ, hmod]

theorem natToBaseAux_length_le (b : Nat) (hb : 2 ≤ b) :
    ∀ fuel n k, n ≤ fuel → n < b ^ k → (natToBaseAux b fuel n).length ≤ k := by
  intro fuel
  induction fuel with
  | zero =>
    intro n k hn _
    interval_cases n
    simp [natToBaseAux]
  | succ fuel ih =>
    intro n k hn hk
    match n with
    | 0 => simp [natToBaseAux]
    | n + 1 =>
      have hkpos : 0 < k := by
        rcases Nat.eq_zero_or_pos k with h | h
        · subst h; simp at hk
        · exact h
      have hlt : (n + 1) / b < n + 1 := Nat.div_lt_self (by omega) (by omega)
      have hdiv : (n + 1) / b ≤ fuel := by omega
      have hdivlt : (n + 1) / b < b ^ (k - 1) := by
        rw [Nat.div_lt_iff_lt_mul (by omega)]
        calc n + 1 < b ^ k := hk
        _ = b ^ (k - 1) * b := by
          conv_lhs => rw [show k = (k - 1) + 1 by omega]
          rw [pow_succ]
      simp only [natToBaseAux, List.length_append, List.length_cons, List.length_nil]
      have := ih ((n + 1) / b) (k - 1) hdiv hdivlt
      omega

theorem mem_natToBaseAux (b : Nat) (hb : 2 ≤ b) :
    ∀ fuel n c, c ∈ natToBaseAux b fuel n → ∃ d, d < b ∧ c = digitChar d := by
  intro fuel
  induction fuel with
  | zero => intro n c hc; simp [natToBaseAux] at hc
  | succ fuel ih =>
    intro n c hc
    match n with
    | 0 => simp [natToBaseAux] at hc
    | n + 1 =>
      simp only [natToBaseAux, List.mem_append, List.mem_singleton] at hc
      rcases hc with hc | hc
      · exact ih _ _ hc
      · exact ⟨(n + 1) % b, Nat.mod_lt _ (by omega), hc⟩

theorem natToBase_ne_nil (b n : Nat) : natToBase b n ≠ [] := by
  unfold natToBase
  split
  · simp
  · rename_i hn
    match n, hn with
    | n + 1, _ => simp [natToBaseAux]

theorem natToDec_ne_nil (n : Nat) : natToDec n ≠ [] := natToBase_ne_nil 10 n

theorem natToHex_ne_nil (n : Nat) : natToHex n ≠ [] := natToBase_ne_nil 16 n

theorem decVal_natToDec (n : Nat) : decVal (natToDec n) = n := by
  unfold natToDec natToBase decVal
  split
  · rename_i h; subst h; decide
  · have := natToBaseAux_foldl 10 digitVal (by omega) digitVal_digitChar n n 0 le_rfl
    simpa using this

theorem hexVal_natToHex (n : Nat) : hexVal (natToHex n) = n := by
  unfold natToHex natToBase hexVal
  split
  · rename_i h; subst h; decide
  · have := natToBaseAux_foldl 16 hexDigitVal (by omega) hexDigitVal_digitChar n n 0 le_rfl
    simpa using this

theorem natToDec_length_le {n k : Nat} (h : n < 10 ^ k) (hk : 0 < k) :
    (natToDec n).length ≤ k := by
  unfold natToDec natToBase
  split
  · simpa using hk
  · exact natToBaseAux_length_le 10 (by omega) n n k le_rfl h

theorem natToHex_length_le {n k : Nat} (h : n < 16 ^ k) (hk : 0 < k) :
    (natToHex n).length ≤ k := by
  unfold natToHex natToBase
  split
  · simpa using hk
  · exact natToBaseAux_length_le 16 (by omega) n n k le_rfl h

theorem natToDec_all_digit (n : Nat) : ∀ c ∈ natToDec n, isDigit c = true := by
  intro c hc
  unfold natToDec natToBase at hc
  split at hc
  · simp at hc; subst hc; decide
  · obtain ⟨d, hd, rfl⟩ := mem_natToBaseAux 10 (by omega) n n c hc
    exact isDigit_digitChar d hd

theorem natToHex_all_hex (n : Nat) : ∀ c ∈ natToHex n, isHexDigit c = true := by
  intro c hc
  unfold natToHex natToBase at hc
  split at hc
  · simp at hc; subst hc; decide
  · obtain ⟨d, hd, rfl⟩ := mem_natToBaseAux 16 (by omega) n n c hc
    exact isHexDigit_digitChar d hd

/-! ## Lemmas: `splitOnChar` and `joinSep` -/

theorem splitOnChar_ne_nil (sep : Char) (s : Str) : splitOnChar sep s ≠ [] := by
  induction s with
  | nil => simp [splitOnChar]
  | cons c rest ih =>
    rcases h : splitOnChar sep rest with _ | ⟨g, gs⟩
    · exact absurd h ih
    · simp only [splitOnChar, h]
      split <;> simp

theorem splitOnChar_not_mem {sep : Char} {s : Str} (h : sep ∉ s) :
    splitOnChar sep s = [s] := by
  induction s with
  | nil => rfl
  | cons c rest ih =>
    have hc : c ≠ sep := fun hc => h (hc ▸ List.mem_cons_self c rest)
    have hrest : sep ∉ rest := fun hr => h (List.mem_cons_of_mem c hr)
    simp only [splitOnChar, ih hrest]
    simp [hc]

theorem splitOnChar_append {sep : Char} {a : Str} (b : Str) (h : sep ∉ a) :
    splitOnChar sep (a ++ sep :: b) = a :: splitOnChar sep b := by
  induction a with
  | nil =>
    simp only [List.nil_append, splitOnChar]
    rcases hb : splitOnChar sep b with _ | ⟨g, gs⟩
    · exact absurd hb (splitOnChar_ne_nil sep b)
    · simp
  | cons c a' ih =>
    have hc : c ≠ sep := fun hc => h (hc ▸ List.mem_cons_self c a')
    have ha' : sep ∉ a' := fun hr => h (List.mem_cons_of_mem c hr)
    rw [List.cons_append]
    simp only [splitOnChar]
    rw [ih ha']
    simp [hc]

theorem joinSep_cons (sep : Char) (g : Str) (g' : Str) (gs : List Str) :
    joinSep sep (g :: g' :: gs) = g ++ sep :: joinSep sep (g' :: gs) := rfl

theorem joinSep_splitOnChar (sep : Char) (s : Str) :
    joinSep sep (splitOnChar sep s) = s := by
  induction s with
  | nil => rfl
  | cons c rest ih =>
    simp only [splitOnChar]
    rcases h : splitOnChar sep rest with _ | ⟨g, gs⟩
    · exact absurd h (splitOnChar_ne_nil sep rest)
    · rw [h] at ih
      by_cases hc : c = sep
      · subst hc
        show joinSep c (if c = c then [] :: g :: gs else (c :: g) :: gs) = c :: rest
        rw [if_pos rfl, joinSep_cons, List.nil_append, ih]
      · simp only [splitOnChar, h, if_neg hc]
        rcases gs with _ | ⟨g', gs'⟩
        · simp only [joinSep] at ih ⊢
          rw [ih]
        · rw [joinSep_cons, List.cons_append, ← joinSep_cons, ih]

theorem splitOnChar_joinSep {sep : Char} :
    ∀ {gs : List Str}, gs ≠ [] → (∀ g ∈ gs, sep ∉ g) →
      splitOnChar sep (joinSep sep gs) = gs := by
  intro gs
  induction gs with
  | nil => intro h; exact absurd rfl h
  | cons g gs' ih =>
    intro _ hmem
    rcases gs' with _ | ⟨g', gs''⟩
    · exact splitOnChar_not_mem (hmem g (List.mem_cons_self g []))
    · rw [joinSep_cons, splitOnChar_append _ (hmem g (List.mem_cons_self g _)),
        ih (by simp) (fun x hx => hmem x (List.mem_cons_of_mem g hx))]

theorem mem_joinSep {sep : Char} {c : Char} :
    ∀ {gs : List Str}, c ∈ joinSep sep gs → c = sep ∨ ∃ g ∈ gs, c ∈ g := by
  intro gs
  induction gs with
  | nil => intro h; simp [joinSep] at h
  | cons g gs' ih =>
    intro h
    rcases gs' with _ | ⟨g', gs''⟩
    · exact Or.inr ⟨g, List.mem_cons_self g [], h⟩
    · rw [joinSep_cons] at h
      rcases List.mem_append.mp h with hg | hrest
      · exact Or.inr ⟨g, List.mem_cons_self g _, hg⟩
      · rcases List.mem_cons.mp hrest with hc | hc
        · exact Or.inl hc
        · rcases ih hc with h' | ⟨g'', hg'', hc'⟩
          · exact Or.inl h'
          · exact Or.inr ⟨g'', List.mem_cons_of_mem g hg'', hc'⟩

theorem joinSep_head? {sep : Char} {g : Str} {gs : List Str} (hg : g ≠ []) :
    (joinSep sep (g :: gs)).head? = g.head? := by
  rcases gs with _ | ⟨g', gs'⟩
  · rfl
  · rw [joinSep_cons]
    rcases g with _ | ⟨c, g''⟩
    · exact absurd rfl hg
    · rfl

/-! ## Lemmas: `clean` -/

theorem dropWhile_eq_self {p : Char → Bool} {s : Str}
    (h : ∀ c ∈ s, p c = false) : s.dropWhile p = s := by
  rcases s with _ | ⟨c, rest⟩
  · rfl
  · rw [List.dropWhile_cons, h c (List.mem_cons_self c rest)]
    simp

theorem clean_eq_self {s : Str}
    (h : ∀ c ∈ s, isBidi c = false ∧ isWS c = false) : IPBase.clean s = s := by
  unfold IPBase.clean trimWS
  have hfilter : (s.filter fun c => !isBidi c) = s := by
    rw [List.filter_eq_self]
    intro c hc
    simp [(h c hc).1]
  rw [hfilter]
  rw [dropWhile_eq_self (fun c hc => (h c hc).2)]
  rw [dropWhile_eq_self (fun c hc => (h c (List.mem_reverse.mp hc)).2)]
  exact List.reverse_reverse s

theorem clean_eq_self_of_plain {s : Str}
    (h : ∀ c ∈ s, isPlain c = true) : IPBase.clean s = s :=
  clean_eq_self fun c hc => ⟨isPlain_not_bidi (h c hc), isPlain_not_ws (h c hc)⟩

/-! ## Lemmas: colon patterns -/

theorem hasDoubleColon_cons {c : Char} {s : Str} :
    hasDoubleColon (c :: s) =
      ((c == ':' && (s.head?.getD ' ' == ':' && !s.isEmpty)) || hasDoubleColon s) := by
  rcases s with _ | ⟨c', rest⟩
  · simp [hasDoubleColon]
  · simp [hasDoubleColon]

theorem hasDoubleColon_append {a b : Str} (ha : ∀ c ∈ a, c ≠ ':')
    (hb : hasDoubleColon b = false) : hasDoubleColon (a ++ b) = false := by
  induction a with
  | nil => simpa
  | cons c a' ih =>
    have hc : c ≠ ':' := ha c (List.mem_cons_self c a')
    rw [List.cons_append, hasDoubleColon_cons,
      ih (fun x hx => ha x (List.mem_cons_of_mem c hx))]
    simp [hc]

theorem hasDoubleColon_of_not_mem {s : Str} (h : ∀ c ∈ s, c ≠ ':') :
    hasDoubleColon s = false := by
  have := hasDoubleColon_append h (b := []) rfl
  simpa using this

theorem hasDoubleColon_joinSep {gs : List Str}
    (h : ∀ g ∈ gs, g ≠ [] ∧ ∀ c ∈ g, c ≠ ':') {t : Str}
    (ht : hasDoubleColon t = false) :
    hasDoubleColon (joinSep ':' gs ++ t) = false := by
  induction gs with
  | nil => simpa [joinSep]
  | cons g gs' ih =>
    rcases gs' with _ | ⟨g', gs''⟩
    · exact hasDoubleColon_append (h g (by simp)).2 ht
    · rw [joinSep_cons, List.append_assoc, List.cons_append]
      apply hasDoubleColon_append (h g (by simp)).2
      have hg' := h g' (by simp)
      obtain ⟨c, g'', rfl⟩ := List.exists_cons_of_ne_nil hg'.1
      have hcn : ¬ (c = ':') := hg'.2 c (by simp)
      have hrec : hasDoubleColon (joinSep ':' ((c :: g'') :: gs'') ++ t) = false :=
        ih fun x hx => h x (List.mem_cons_of_mem g hx)
      obtain ⟨r, hr⟩ : ∃ r, joinSep ':' ((c :: g'') :: gs'') ++ t = c :: r := by
        rcases gs'' with _ | ⟨g₂, gs₃⟩
        · exact ⟨g'' ++ t, rfl⟩
        · exact ⟨g'' ++ ':' :: joinSep ':' (g₂ :: gs₃) ++ t, by simp [joinSep_cons]⟩
      rw [hr] at hrec ⊢
      simp only [hasDoubleColon, hrec, Bool.or_false, Bool.and_eq_false_iff, beq_eq_false_iff_ne,
        ne_eq]
      right
      exact hcn

theorem hasDoubleColon_two_cons (c c' : Char) (rest : Str) :
    hasDoubleColon (c :: c' :: rest) =
      ((c == ':' && c' == ':') || hasDoubleColon (c' :: rest)) := rfl

theorem hasTripleColon_of_hdc {s : Str} (h : hasDoubleColon s = false) :
    hasTripleColon s = false := by
  induction s with
  | nil => rfl
  | cons c rest ih =>
    rcases rest with _ | ⟨c', rest'⟩
    · rfl
    · rw [hasDoubleColon_two_cons] at h
      obtain ⟨h1, h2⟩ := Bool.or_eq_false_iff.mp h
      rcases rest' with _ | ⟨c'', rest''⟩
      · rfl
      · rw [show hasTripleColon (c :: c' :: c'' :: rest'') =
            ((c == ':' && c' == ':' && c'' == ':') || hasTripleColon (c' :: c'' :: rest''))
            from rfl]
        rw [ih h2, h1]
        simp

theorem doubleColonCount_eq_zero {s : Str} (h : hasDoubleColon s = false) :
    doubleColonCount s = 0 := by
  induction s with
  | nil => rfl
  | cons c rest ih =>
    rcases rest with _ | ⟨c', rest'⟩
    · rfl
    · rw [hasDoubleColon_two_cons] at h
      obtain ⟨h1, h2⟩ := Bool.or_eq_false_iff.mp h
      rw [show doubleColonCount (c :: c' :: rest') =
          (if c == ':' && c' == ':' then doubleColonCount rest' + 1
           else doubleColonCount (c' :: rest')) from rfl]
      rw [h1]
      simpa using ih h2

/-! ## Lemmas: the limb loops -/

theorem limbsV4_eq_some {gs : List Str} {ps : List Nat} :
    limbsV4 gs = some ps ↔
      ps = gs.map decVal ∧ ∀ g ∈ gs, g.length ≤ 3 ∧ decVal g ≤ 255 := by
  induction gs generalizing ps with
  | nil => simp [limbsV4, eq_comm]
  | cons g gs' ih =>
    simp only [limbsV4]
    constructor
    · intro h
      split at h
      · rename_i hg
        rcases Option.map_eq_some'.mp h with ⟨l, hl, rfl⟩
        obtain ⟨rfl, hall⟩ := ih.mp hl
        refine ⟨rfl, ?_⟩
        intro x hx
        rcases List.mem_cons.mp hx with rfl | hx'
        · exact hg
        · exact hall x hx'
      · exact absurd h (by simp)
    · rintro ⟨rfl, hall⟩
      rw [if_pos (hall g (by simp))]
      rw [ih.mpr ⟨rfl, fun x hx => hall x (List.mem_cons_of_mem g hx)⟩]
      rfl

theorem limbsV6_eq_some {els : List Str} {ps : List Nat} :
    limbsV6 els = some ps ↔
      ps = els.map v6val ∧ ∀ el ∈ els, el.length ≤ 4 ∧ v6val el ≤ 0xffff := by
  induction els generalizing ps with
  | nil => simp [limbsV6, eq_comm]
  | cons el els' ih =>
    simp only [limbsV6]
    constructor
    · intro h
      split at h
      · rename_i hel
        rcases Option.map_eq_some'.mp h with ⟨l, hl, rfl⟩
        obtain ⟨rfl, hall⟩ := ih.mp hl
        refine ⟨rfl, ?_⟩
        intro x hx
        rcases List.mem_cons.mp hx with rfl | hx'
        · exact hel
        · exact hall x hx'
      · exact absurd h (by simp)
    · rintro ⟨rfl, hall⟩
      rw [if_pos (hall el (by simp))]
      rw [ih.mpr ⟨rfl, fun x hx => hall x (List.mem_cons_of_mem el hx)⟩]
      rfl

/-! ## Lemmas: `mapWithIndex` -/

theorem mapIdxAux_length (f : Nat → α → β) :
    ∀ (l : List α) (k : Nat), (mapIdxAux f k l).length = l.length := by
  intro l
  induction l with
  | nil => intro k; rfl
  | cons a l' ih => intro k; simp [mapIdxAux, ih]

theorem mapWithIndex_length (f : Nat → α → β) (l : List α) :
    (mapWithIndex f l).length = l.length :=
  mapIdxAux_length f l 0

theorem mapIdxAux_getD (f : Nat → α → β) :
    ∀ (l : List α) (k j : Nat), j < l.length → ∀ (d : β) (d' : α),
      (mapIdxAux f k l).getD j d = f (k + j) (l.getD j d') := by
  intro l
  induction l with
  | nil => intro k j hj; simp at hj
  | cons a l' ih =>
    intro k j hj d d'
    rcases j with _ | j'
    · simp [mapIdxAux]
    · simp only [mapIdxAux, List.getD_cons_succ]
      rw [ih (k + 1) j' (by simpa using hj) d d']
      congr 1
      omega

theorem mapWithIndex_getD (f : Nat → α → β) (l : List α) (j : Nat)
    (hj : j < l.length) (d : β) (d' : α) :
    (mapWithIndex f l).getD j d = f j (l.getD j d') := by
  have := mapIdxAux_getD f l 0 j hj d d'
  simpa using this

theorem mem_mapIdxAux {f : Nat → α → β} :
    ∀ {l : List α} {k : Nat} {y : β}, y ∈ mapIdxAux f k l → ∃ i a, a ∈ l ∧ y = f i a := by
  intro l
  induction l with
  | nil => intro k y h; simp [mapIdxAux] at h
  | cons a l' ih =>
    intro k y h
    rcases List.mem_cons.mp h with rfl | h'
    · exact ⟨k, a, by simp⟩
    · rcases ih h' with ⟨i, a', ha', rfl⟩
      exact ⟨i, a', List.mem_cons_of_mem a ha', rfl⟩

theorem mapIdxAux_mapIdxAux (f g : Nat → α → α) :
    ∀ (l : List α) (k : Nat),
      mapIdxAux f k (mapIdxAux g k l) = mapIdxAux (fun i x => f i (g i x)) k l := by
  intro l
  induction l with
  | nil => intro k; rfl
  | cons a l' ih => intro k; simp [mapIdxAux, ih]

theorem mapIdxAux_congr {f g : Nat → α → β} (h : ∀ i x, f i x = g i x) :
    ∀ (l : List α) (k : Nat), mapIdxAux f k l = mapIdxAux g k l := by
  intro l
  induction l with
  | nil => intro k; rfl
  | cons a l' ih => intro k; simp [mapIdxAux, h, ih]

/-! ## Lemmas: `parseRange` -/

theorem parseRange_first_length (parts : List Nat) (bl : Option Nat) :
    (IPBase.parseRange parts bl).first.length = parts.length := by
  rcases bl with _ | b
  · rfl
  · simp [IPBase.parseRange, mapWithIndex_length]

theorem parseRange_last_length (parts : List Nat) (bl : Option Nat) :
    (IPBase.parseRange parts bl).last.length = parts.length := by
  rcases bl with _ | b
  · rfl
  · simp [IPBase.parseRange, mapWithIndex_length]

theorem parseRange_first_none (parts : List Nat) :
    (IPBase.parseRange parts none).first = parts := rfl

theorem parseRange_bitLen (parts : List Nat) (b : Nat) :
    (IPBase.parseRange parts (some b)).bitLen = b := rfl

/-- Each limb of `first` is the corresponding limb of `parts` masked. -/
theorem parseRange_first_some (parts : List Nat) (b : Nat) :
    (IPBase.parseRange parts (some b)).first =
      mapWithIndex (fun i el => el &&& (netMaskParts parts.length b).getD i 0) parts := rfl

theorem parseRange_first_le {parts : List Nat} {high : Nat}
    (h : ∀ x ∈ parts, x ≤ high) (bl : Option Nat) :
    ∀ y ∈ (IPBase.parseRange parts bl).first, y ≤ high := by
  rcases bl with _ | b
  · exact h
  · intro y hy
    rcases mem_mapIdxAux hy with ⟨i, a, ha, rfl⟩
    exact le_trans Nat.and_le_left (h a ha)

/-- Masking twice with the same netmask is the identity on the first pass's
output: the "first" address of a corrected CIDR is already corrected. -/
theorem nat_and_and_self (x m : Nat) : x &&& m &&& m = x &&& m := by
  apply Nat.eq_of_testBit_eq
  intro i
  simp only [Nat.testBit_and]
  cases x.testBit i <;> cases m.testBit i <;> simp

theorem parseRange_first_idem (parts : List Nat) (bl : Option Nat) :
    (IPBase.parseRange (IPBase.parseRange parts bl).first bl).first =
      (IPBase.parseRange parts bl).first := by
  rcases bl with _ | b
  · rfl
  · rw [parseRange_first_some, parseRange_first_some]
    rw [show (mapWithIndex (fun i el => el &&& (netMaskParts parts.length b).getD i 0)
        parts).length = parts.length from mapWithIndex_length _ _]
    unfold mapWithIndex
    rw [mapIdxAux_mapIdxAux]
    exact mapIdxAux_congr (fun i x => nat_and_and_self x _) parts 0

/-! ## Lemmas: canonical strings -/

theorem exists_len_four {l : List α} (h : l.length = 4) :
    ∃ a b c d, l = [a, b, c, d] := by
  rcases l with _ | ⟨a, l⟩
  · exfalso; simp only [List.length_nil] at h; omega
  rcases l with _ | ⟨b, l⟩
  · exfalso; simp only [List.length_cons, List.length_nil] at h; omega
  rcases l with _ | ⟨c, l⟩
  · exfalso; simp only [List.length_cons, List.length_nil] at h; omega
  rcases l with _ | ⟨d, l⟩
  · exfalso; simp only [List.length_cons, List.length_nil] at h; omega
  rcases l with _ | ⟨e, l⟩
  · exact ⟨a, b, c, d, rfl⟩
  · exfalso; simp only [List.length_cons, List.length_nil] at h; omega

theorem exists_len_eight {l : List α} (h : l.length = 8) :
    ∃ a b c d e f g h', l = [a, b, c, d, e, f, g, h'] := by
  rcases l with _ | ⟨a, l⟩
  · exfalso; simp only [List.length_nil] at h; omega
  rcases l with _ | ⟨b, l⟩
  · exfalso; simp only [List.length_cons, List.length_nil] at h; omega
  rcases l with _ | ⟨c, l⟩
  · exfalso; simp only [List.length_cons, List.length_nil] at h; omega
  rcases l with _ | ⟨d, l⟩
  · exfalso; simp only [List.length_cons, List.length_nil] at h; omega
  rcases l with _ | ⟨e, l⟩
  · exfalso; simp only [List.length_cons, List.length_nil] at h; omega
  rcases l with _ | ⟨f, l⟩
  · exfalso; simp only [List.length_cons, List.length_nil] at h; omega
  rcases l with _ | ⟨g, l⟩
  · exfalso; simp only [List.length_cons, List.length_nil] at h; omega
  rcases l with _ | ⟨h', l⟩
  · exfalso; simp only [List.length_cons, List.length_nil] at h; omega
  rcases l with _ | ⟨i, l⟩
  · exact ⟨a, b, c, d, e, f, g, h', rfl⟩
  · exfalso; simp only [List.length_cons, List.length_nil] at h; omega

theorem stringify_sanitized_v4 {decimals : List Nat} (h4 : decimals.length = 4)
    (suffix : Str) :
    IPBase.stringify decimals suffix { mode := none, capitalize := false } =
      joinSep '.' (decimals.map natToDec) ++ suffix := by
  unfold IPBase.stringify IPBase.modCase
  simp [h4]

theorem stringify_sanitized_v6 {decimals : List Nat} (h8 : decimals.length = 8)
    (suffix : Str) :
    IPBase.stringify decimals suffix { mode := none, capitalize := false } =
      joinSep ':' (decimals.map natToHex) ++ suffix := by
  unfold IPBase.stringify IPBase.modCase
  simp [h8]

theorem joinSep_ne_nil {sep : Char} {gs : List Str} (hne : gs ≠ [])
    (h : ∀ g ∈ gs, g ≠ []) : joinSep sep gs ≠ [] := by
  rcases gs with _ | ⟨g, gs'⟩
  · exact absurd rfl hne
  · rcases gs' with _ | ⟨g', gs''⟩
    · exact h g (by simp)
    · rw [joinSep_cons]
      exact fun hcontra =>
        (h g (by simp)) (List.append_eq_nil.mp hcontra).1

theorem not_mem_natToDec {c : Char} (h : isDigit c = false) (n : Nat) :
    c ∉ natToDec n :=
  fun hmem => absurd (natToDec_all_digit n c hmem) (by simp [h])

theorem not_mem_natToHex {c : Char} (h : isHexDigit c = false) (n : Nat) :
    c ∉ natToHex n :=
  fun hmem => absurd (natToHex_all_hex n c hmem) (by simp [h])

theorem suffix_all_plain (bl : Option Nat) : ∀ c ∈ suffixStr bl, isPlain c = true := by
  intro c hc
  rcases bl with _ | b
  · simp [suffixStr] at hc
  · simp only [suffixStr] at hc
    rcases List.mem_cons.mp hc with rfl | h'
    · decide
    · exact isPlain_of_isDigit (natToDec_all_digit b c h')

theorem suffix_no_slash_tail (b : Nat) : '/' ∉ natToDec b :=
  not_mem_natToDec (by decide) b

theorem suffix_no_colon (bl : Option Nat) : ∀ c ∈ suffixStr bl, c ≠ ':' := by
  intro c hc
  rcases bl with _ | b
  · simp [suffixStr] at hc
  · simp only [suffixStr] at hc
    rcases List.mem_cons.mp hc with rfl | h'
    · decide
    · intro hcontra
      subst hcontra
      exact not_mem_natToDec (by decide) b h'

/-! ## Round-trip of the sanitized form through `parse` -/

/-- Well-formed group lists: non-empty, every character satisfying `p`. -/
def GoodGroups (p : Char → Bool) (gs : List Str) : Prop :=
  ∀ g ∈ gs, g ≠ [] ∧ ∀ c ∈ g, p c = true

theorem map_roundtrip {f : α → β} {g : β → α} (h : ∀ x, g (f x) = x) (l : List α) :
    (l.map f).map g = l := by
  induction l with
  | nil => rfl
  | cons a l' ih => simp [h, ih]

theorem v4Addr_canonical {g1 g2 g3 g4 : Str}
    (h : GoodGroups isDigit [g1, g2, g3, g4]) :
    v4Addr (joinSep '.' [g1, g2, g3, g4]) = some [g1, g2, g3, g4] := by
  have hnodot : ∀ g ∈ [g1, g2, g3, g4], '.' ∉ g := fun g hg hm =>
    absurd ((h g hg).2 '.' hm) (by decide)
  have hsplit : splitOnChar '.' (joinSep '.' [g1, g2, g3, g4]) = [g1, g2, g3, g4] :=
    splitOnChar_joinSep (by simp) hnodot
  unfold v4Addr
  rw [hsplit]
  show (if (g1 ≠ [] ∧ g1.all isDigit) ∧ (g2 ≠ [] ∧ g2.all isDigit) ∧
      (g3 ≠ [] ∧ g3.all isDigit) ∧ (g4 ≠ [] ∧ g4.all isDigit) then
    some [g1, g2, g3, g4] else none) = some [g1, g2, g3, g4]
  rw [if_pos]
  exact ⟨⟨(h g1 (by simp)).1, List.all_eq_true.mpr ((h g1 (by simp)).2)⟩,
    ⟨(h g2 (by simp)).1, List.all_eq_true.mpr ((h g2 (by simp)).2)⟩,
    ⟨(h g3 (by simp)).1, List.all_eq_true.mpr ((h g3 (by simp)).2)⟩,
    ⟨(h g4 (by simp)).1, List.all_eq_true.mpr ((h g4 (by simp)).2)⟩⟩

theorem joinSep_dot_no_slash {g1 g2 g3 g4 : Str}
    (h : GoodGroups isDigit [g1, g2, g3, g4]) :
    '/' ∉ joinSep '.' [g1, g2, g3, g4] := by
  intro hm
  rcases mem_joinSep hm with h' | ⟨g, hg, hgm⟩
  · exact absurd h' (by decide)
  · exact absurd ((h g hg).2 '/' hgm) (by decide)

theorem v4Match_canonical_none {g1 g2 g3 g4 : Str}
    (h : GoodGroups isDigit [g1, g2, g3, g4]) :
    v4Match (joinSep '.' [g1, g2, g3, g4]) = some ([g1, g2, g3, g4], none) := by
  unfold v4Match
  rw [splitOnChar_not_mem (joinSep_dot_no_slash h)]
  show (v4Addr (joinSep '.' [g1, g2, g3, g4])).map (fun gs => (gs, (none : Option Str))) =
    some ([g1, g2, g3, g4], none)
  rw [v4Addr_canonical h]
  rfl

theorem v4Match_canonical_some {g1 g2 g3 g4 d : Str}
    (h : GoodGroups isDigit [g1, g2, g3, g4]) (hd : d ≠ [])
    (hdd : ∀ c ∈ d, isDigit c = true) :
    v4Match (joinSep '.' [g1, g2, g3, g4] ++ '/' :: d) =
      some ([g1, g2, g3, g4], some d) := by
  have hnoslashd : '/' ∉ d := fun hm => absurd (hdd '/' hm) (by decide)
  unfold v4Match
  rw [splitOnChar_append _ (joinSep_dot_no_slash h), splitOnChar_not_mem hnoslashd]
  show (if d ≠ [] ∧ d.all isDigit then
      (v4Addr (joinSep '.' [g1, g2, g3, g4])).map fun gs => (gs, some d)
    else none) = some ([g1, g2, g3, g4], some d)
  rw [if_pos ⟨hd, List.all_eq_true.mpr hdd⟩, v4Addr_canonical h]
  rfl

theorem parse_canonical_v4 {parts : List Nat} (h4 : parts.length = 4)
    (hb : ∀ x ∈ parts, x ≤ 255) {bl : Option Nat} (hbl : bitLenOk 32 bl = true) :
    IPBase.parse
      (IPBase.stringify parts (suffixStr bl) { mode := none, capitalize := false }) =
      some ⟨parts, bl⟩ := by
  rw [stringify_sanitized_v4 h4]
  have hgd : GoodGroups isDigit (parts.map natToDec) := by
    intro g hg
    rcases List.mem_map.mp hg with ⟨x, _, rfl⟩
    exact ⟨natToBase_ne_nil 10 x, natToDec_all_digit x⟩
  have hplain : ∀ ch ∈ joinSep '.' (parts.map natToDec) ++ suffixStr bl,
      isPlain ch = true := by
    intro ch hch
    rcases List.mem_append.mp hch with h1 | h2
    · rcases mem_joinSep h1 with rfl | ⟨g, hg, hm⟩
      · decide
      · exact isPlain_of_isDigit ((hgd g hg).2 ch hm)
    · exact suffix_all_plain bl ch h2
  have hlimbs : limbsV4 (parts.map natToDec) = some parts := by
    apply limbsV4_eq_some.mpr
    constructor
    · exact (map_roundtrip decVal_natToDec parts).symm
    · intro g hg
      rcases List.mem_map.mp hg with ⟨x, hx, rfl⟩
      have hx255 : x ≤ 255 := hb x hx
      exact ⟨natToDec_length_le (by omega) (by omega),
        by rw [decVal_natToDec]; exact hx255⟩
  obtain ⟨a, b, c, d, rfl⟩ := exists_len_four h4
  simp only [IPBase.parse]
  rw [clean_eq_self_of_plain hplain]
  rcases bl with _ | blv
  · rw [show suffixStr none = [] from rfl, List.append_nil]
    rw [show ([a, b, c, d].map natToDec) =
      [natToDec a, natToDec b, natToDec c, natToDec d] from rfl] at hgd hlimbs ⊢
    rw [v4Match_canonical_none hgd]
    show parseV4 [natToDec a, natToDec b, natToDec c, natToDec d] none =
      some ⟨[a, b, c, d], none⟩
    simp only [parseV4, Option.map_none', bitLenOk, hlimbs]
    rfl
  · rw [show suffixStr (some blv) = '/' :: natToDec blv from rfl]
    rw [show ([a, b, c, d].map natToDec) =
      [natToDec a, natToDec b, natToDec c, natToDec d] from rfl] at hgd hlimbs ⊢
    rw [v4Match_canonical_some hgd (natToDec_ne_nil blv) (natToDec_all_digit blv)]
    show parseV4 [natToDec a, natToDec b, natToDec c, natToDec d] (some (natToDec blv)) =
      some ⟨[a, b, c, d], some blv⟩
    simp only [parseV4, Option.map_some', decVal_natToDec, hbl, hlimbs]
    rfl

/-! ## Round-trip of the sanitized form: IPv6 -/

theorem isHexDigit_ne_colon {c : Char} (h : isHexDigit c = true) : c ≠ ':' := by
  intro rfl'
  subst rfl'
  exact absurd h (by decide)

theorem isHexDigit_ne_dot {c : Char} (h : isHexDigit c = true) : c ≠ '.' := by
  intro rfl'
  subst rfl'
  exact absurd h (by decide)

theorem isHexDigit_ne_slash {c : Char} (h : isHexDigit c = true) : c ≠ '/' := by
  intro rfl'
  subst rfl'
  exact absurd h (by decide)

theorem goodGroups_colon_free {gs : List Str} (h : GoodGroups isHexDigit gs) :
    ∀ g ∈ gs, g ≠ [] ∧ ∀ c ∈ g, c ≠ ':' :=
  fun g hg => ⟨(h g hg).1, fun c hc => isHexDigit_ne_colon ((h g hg).2 c hc)⟩

theorem joinSep_colon_all_hexOrColon {gs : List Str} (h : GoodGroups isHexDigit gs) :
    ∀ c ∈ joinSep ':' gs, isHexOrColon c = true := by
  intro c hc
  rcases mem_joinSep hc with rfl | ⟨g, hg, hm⟩
  · decide
  · simp only [isHexOrColon, Bool.or_eq_true]
    exact Or.inl ((h g hg).2 c hm)

theorem joinSep_colon_no_slash {gs : List Str} (h : GoodGroups isHexDigit gs) :
    '/' ∉ joinSep ':' gs := by
  intro hm
  rcases mem_joinSep hm with h' | ⟨g, hg, hgm⟩
  · exact absurd h' (by decide)
  · exact isHexDigit_ne_slash ((h g hg).2 '/' hgm) rfl

theorem joinSep_colon_no_dot {gs : List Str} (h : GoodGroups isHexDigit gs) :
    '.' ∉ joinSep ':' gs := by
  intro hm
  rcases mem_joinSep hm with h' | ⟨g, hg, hgm⟩
  · exact absurd h' (by decide)
  · exact isHexDigit_ne_dot ((h g hg).2 '.' hgm) rfl

theorem v6Match_canonical_none {gs : List Str} (hne : gs ≠ [])
    (h : GoodGroups isHexDigit gs) :
    v6Match (joinSep ':' gs) = some (joinSep ':' gs, none) := by
  unfold v6Match
  rw [splitOnChar_not_mem (joinSep_colon_no_slash h)]
  show (if joinSep ':' gs ≠ [] ∧ (joinSep ':' gs).all isHexOrColon then
      some (joinSep ':' gs, (none : Option Str)) else none) = some (joinSep ':' gs, none)
  rw [if_pos ⟨joinSep_ne_nil hne (fun g hg => (h g hg).1),
    List.all_eq_true.mpr (joinSep_colon_all_hexOrColon h)⟩]

theorem v6Match_canonical_some {gs : List Str} {d : Str} (hne : gs ≠ [])
    (h : GoodGroups isHexDigit gs) (hd : d ≠ []) (hdd : ∀ c ∈ d, isDigit c = true) :
    v6Match (joinSep ':' gs ++ '/' :: d) = some (joinSep ':' gs, some d) := by
  have hnoslashd : '/' ∉ d := fun hm => absurd (hdd '/' hm) (by decide)
  unfold v6Match
  rw [splitOnChar_append _ (joinSep_colon_no_slash h), splitOnChar_not_mem hnoslashd]
  show (if (joinSep ':' gs ≠ [] ∧ (joinSep ':' gs).all isHexOrColon) ∧
      (d ≠ [] ∧ d.all isDigit) then
      some (joinSep ':' gs, some d) else none) = some (joinSep ':' gs, some d)
  rw [if_pos ⟨⟨joinSep_ne_nil hne (fun g hg => (h g hg).1),
    List.all_eq_true.mpr (joinSep_colon_all_hexOrColon h)⟩,
    hd, List.all_eq_true.mpr hdd⟩]

theorem v6val_natToHex (x : Nat) : v6val (natToHex x) = x := by
  unfold v6val
  rw [if_neg, hexVal_natToHex]
  intro hcontra
  exact natToHex_ne_nil x (by simpa using hcontra)

theorem parse_canonical_v6 {parts : List Nat} (h8 : parts.length = 8)
    (hb : ∀ x ∈ parts, x ≤ 0xffff) {bl : Option Nat} (hbl : bitLenOk 128 bl = true) :
    IPBase.parse
      (IPBase.stringify parts (suffixStr bl) { mode := none, capitalize := false }) =
      some ⟨parts, bl⟩ := by
  rw [stringify_sanitized_v6 h8]
  have hgg : GoodGroups isHexDigit (parts.map natToHex) := by
    intro g hg
    rcases List.mem_map.mp hg with ⟨x, _, rfl⟩
    exact ⟨natToHex_ne_nil x, natToHex_all_hex x⟩
  have hgne : parts.map natToHex ≠ [] := by
    simp only [← List.length_pos, List.length_map, h8]
    omega
  have hplain : ∀ ch ∈ joinSep ':' (parts.map natToHex) ++ suffixStr bl,
      isPlain ch = true := by
    intro ch hch
    rcases List.mem_append.mp hch with h1 | h2
    · rcases mem_joinSep h1 with rfl | ⟨g, hg, hm⟩
      · decide
      · exact isPlain_of_isHexDigit ((hgg g hg).2 ch hm)
    · exact suffix_all_plain bl ch h2
  have hdc : hasDoubleColon (joinSep ':' (parts.map natToHex) ++ suffixStr bl) = false :=
    hasDoubleColon_joinSep (goodGroups_colon_free hgg)
      (hasDoubleColon_of_not_mem (suffix_no_colon bl))
  have htc := hasTripleColon_of_hdc hdc
  have hcount := doubleColonCount_eq_zero hdc
  have hsplit : splitOnChar ':' (joinSep ':' (parts.map natToHex)) = parts.map natToHex :=
    splitOnChar_joinSep hgne fun g hg hm =>
      (goodGroups_colon_free hgg g hg).2 ':' hm rfl
  have hlen8 : (parts.map natToHex).length = 8 := by simp [h8]
  have hlimbs : limbsV6 (parts.map natToHex) = some parts := by
    apply limbsV6_eq_some.mpr
    constructor
    · exact (map_roundtrip v6val_natToHex parts).symm
    · intro el hel
      rcases List.mem_map.mp hel with ⟨x, hx, rfl⟩
      have hxb : x ≤ 0xffff := hb x hx
      exact ⟨natToHex_length_le (by omega) (by omega),
        by rw [v6val_natToHex]; exact hxb⟩
  have hv4addr : v4Addr (joinSep ':' (parts.map natToHex)) = none := by
    unfold v4Addr
    rw [splitOnChar_not_mem (joinSep_colon_no_dot hgg)]
  simp only [IPBase.parse]
  rw [clean_eq_self_of_plain hplain]
  rcases bl with _ | blv
  · rw [show suffixStr none = [] from rfl, List.append_nil] at htc hcount ⊢
    have hv4 : v4Match (joinSep ':' (parts.map natToHex)) = none := by
      unfold v4Match
      rw [splitOnChar_not_mem (joinSep_colon_no_slash hgg)]
      show (v4Addr (joinSep ':' (parts.map natToHex))).map
        (fun gs => (gs, (none : Option Str))) = none
      rw [hv4addr]
      rfl
    rw [hv4]
    show parseV6 (joinSep ':' (parts.map natToHex)) = some ⟨parts, none⟩
    unfold parseV6
    rw [v6Match_canonical_none hgne hgg]
    show (if hasTripleColon (joinSep ':' (parts.map natToHex)) = true ∨
        ¬ doubleColonCount (joinSep ':' (parts.map natToHex)) < 2 then none
      else parseV6Core (joinSep ':' (parts.map natToHex)) ((none : Option Str).map decVal)) =
      some ⟨parts, none⟩
    rw [if_neg (by rw [htc, hcount]; decide)]
    show parseV6Core (joinSep ':' (parts.map natToHex)) none = some ⟨parts, none⟩
    simp only [parseV6Core, bitLenOk, hsplit, hlen8, hlimbs]
    norm_num
    exact ⟨h8, by rw [hlimbs]⟩
  · rw [show suffixStr (some blv) = '/' :: natToDec blv from rfl] at htc hcount ⊢
    have hv4 : v4Match (joinSep ':' (parts.map natToHex) ++ '/' :: natToDec blv) = none := by
      unfold v4Match
      rw [splitOnChar_append _ (joinSep_colon_no_slash hgg),
        splitOnChar_not_mem (suffix_no_slash_tail blv)]
      show (if natToDec blv ≠ [] ∧ (natToDec blv).all isDigit then
          (v4Addr (joinSep ':' (parts.map natToHex))).map fun gs => (gs, some (natToDec blv))
        else none) = none
      split
      · rw [hv4addr]; rfl
      · rfl
    rw [hv4]
    show parseV6 (joinSep ':' (parts.map natToHex) ++ '/' :: natToDec blv) =
      some ⟨parts, some blv⟩
    unfold parseV6
    rw [v6Match_canonical_some hgne hgg (natToDec_ne_nil blv) (natToDec_all_digit blv)]
    show (if hasTripleColon (joinSep ':' (parts.map natToHex) ++ '/' :: natToDec blv) = true ∨
        ¬ doubleColonCount (joinSep ':' (parts.map natToHex) ++ '/' :: natToDec blv) < 2 then
        none
      else parseV6Core (joinSep ':' (parts.map natToHex))
        ((some (natToDec blv)).map decVal)) = some ⟨parts, some blv⟩
    rw [if_neg (by rw [htc, hcount]; decide)]
    show parseV6Core (joinSep ':' (parts.map natToHex)) (some (decVal (natToDec blv))) =
      some ⟨parts, some blv⟩
    rw [decVal_natToDec]
    simp only [parseV6Core, hbl, hsplit, hlen8, hlimbs]
    norm_num
    exact ⟨h8, by rw [hlimbs]⟩

/-! ## Shape of successful parses -/

theorem v4Addr_some_len {addr : Str} {gs : List Str} (h : v4Addr addr = some gs) :
    gs.length = 4 := by
  unfold v4Addr at h
  split at h
  · split at h
    · obtain rfl := Option.some.inj h
      rfl
    · exact absurd h (by simp)
  · exact absurd h (by simp)

theorem v4Match_some_parts {s : Str} {gs : List Str} {suf : Option Str}
    (h : v4Match s = some (gs, suf)) : gs.length = 4 := by
  unfold v4Match at h
  split at h
  · rcases Option.map_eq_some'.mp h with ⟨gs', hgs', heq⟩
    injection heq with h1 h2
    subst h1
    exact v4Addr_some_len hgs'
  · split at h
    · rcases Option.map_eq_some'.mp h with ⟨gs', hgs', heq⟩
      injection heq with h1 h2
      subst h1
      exact v4Addr_some_len hgs'
    · exact absurd h (by simp)
  · exact absurd h (by simp)

theorem parseV4_shape {gs : List Str} {suf : Option Str} {p : Parsed}
    (h : parseV4 gs suf = some p) (hgs : gs.length = 4) :
    p.parts.length = 4 ∧ (∀ x ∈ p.parts, x ≤ 255) ∧ bitLenOk 32 p.bitLen = true := by
  simp only [parseV4] at h
  split at h
  · rename_i hok
    split at h
    · rename_i parts hl
      obtain rfl := Option.some.inj h
      obtain ⟨rfl, hall⟩ := limbsV4_eq_some.mp hl
      refine ⟨by simp [hgs], ?_, hok⟩
      intro x hx
      rcases List.mem_map.mp hx with ⟨g, hg, rfl⟩
      exact (hall g hg).2
    · exact absurd h (by simp)
  · exact absurd h (by simp)

theorem parseV6Core_shape {addr : Str} {bl : Option Nat} {p : Parsed}
    (h : parseV6Core addr bl = some p) :
    p.parts.length = 8 ∧ (∀ x ∈ p.parts, x ≤ 0xffff) ∧ bitLenOk 128 p.bitLen = true := by
  simp only [parseV6Core] at h
  split at h
  · rename_i hok
    split at h
    all_goals (
      split at h
      · rename_i hlen8
        split at h
        · rename_i parts hl
          obtain rfl := Option.some.inj h
          obtain ⟨rfl, hall⟩ := limbsV6_eq_some.mp hl
          refine ⟨by simp only [List.length_map]; exact hlen8, ?_, hok⟩
          intro x hx
          rcases List.mem_map.mp hx with ⟨el, hel, rfl⟩
          exact (hall el hel).2
        · exact absurd h (by simp)
      · exact absurd h (by simp))
  · exact absurd h (by simp)

theorem parseV6_shape {s : Str} {p : Parsed} (h : parseV6 s = some p) :
    p.parts.length = 8 ∧ (∀ x ∈ p.parts, x ≤ 0xffff) ∧ bitLenOk 128 p.bitLen = true := by
  unfold parseV6 at h
  split at h
  · exact absurd h (by simp)
  · split at h
    · exact absurd h (by simp)
    · exact parseV6Core_shape h

theorem parse_shape {s : Str} {p : Parsed} (h : IPBase.parse s = some p) :
    (p.parts.length = 4 ∧ (∀ x ∈ p.parts, x ≤ 255) ∧ bitLenOk 32 p.bitLen = true) ∨
    (p.parts.length = 8 ∧ (∀ x ∈ p.parts, x ≤ 0xffff) ∧ bitLenOk 128 p.bitLen = true) := by
  simp only [IPBase.parse] at h
  split at h
  · rename_i gs suf hm
    exact Or.inl (parseV4_shape h (v4Match_some_parts hm))
  · exact Or.inr (parseV6_shape h)

/-! ## Sanitize: round trip and idempotence -/

theorem parse_sanitized_roundtrip {s : Str} {p : Parsed} (h : IPBase.parse s = some p) :
    IPBase.parse (IPBase.stringify (IPBase.parseRange p.parts p.bitLen).first
      (suffixStr p.bitLen) { mode := none, capitalize := false }) =
      some ⟨(IPBase.parseRange p.parts p.bitLen).first, p.bitLen⟩ := by
  rcases parse_shape h with ⟨h4, hb, hok⟩ | ⟨h8, hb, hok⟩
  · exact parse_canonical_v4 (by rw [parseRange_first_length]; exact h4)
      (parseRange_first_le hb _) hok
  · exact parse_canonical_v6 (by rw [parseRange_first_length]; exact h8)
      (parseRange_first_le hb _) hok

theorem sanitize_idempotent {s t : Str} (h : IPUtil.sanitize s = some t) :
    IPUtil.sanitize t = some t := by
  simp only [IPUtil.sanitize, IPBase.parseAndStringify] at h ⊢
  split at h
  · exact absurd h (by simp)
  · rename_i p hp
    obtain rfl := Option.some.inj h
    rw [parse_sanitized_roundtrip hp]
    show some (IPBase.stringify
        (IPBase.parseRange (IPBase.parseRange p.parts p.bitLen).first p.bitLen).first
        (suffixStr p.bitLen) { mode := none, capitalize := false }) =
      some (IPBase.stringify (IPBase.parseRange p.parts p.bitLen).first
        (suffixStr p.bitLen) { mode := none, capitalize := false })
    rw [parseRange_first_idem]

/-! ## The netmask in closed arithmetic form

`maskLimb L N i` is limb `i` (big-endian) of the `L*L*2`-bit netmask whose top
`N` bits are set: the "per-limb chunking of the netmask" in the words of the
specification. The two lemmas identify the string-chopping computation of the
source with this arithmetic form for every admissible bit length. -/

/-- Big-endian limb `i` of the width-`L*L*2` netmask with the top `N` bits set. -/
def maskLimb (L N i : Nat) : Nat :=
  (2 ^ (L * L * 2) - 2 ^ (L * L * 2 - N)) / 2 ^ ((L - 1 - i) * (L * 2)) % 2 ^ (L * 2)

set_option maxHeartbeats 1000000 in
set_option maxRecDepth 10000 in
theorem netMaskParts8_eq : ∀ N < 129, netMaskParts 8 N = (List.range 8).map (maskLimb 8 N) := by
  decide

set_option maxHeartbeats 1000000 in
set_option maxRecDepth 10000 in
theorem netMaskParts4_eq : ∀ N < 33, netMaskParts 4 N = (List.range 4).map (maskLimb 4 N) := by
  decide

theorem getD_map_range {f : Nat → Nat} {L i : Nat} (hi : i < L) :
    ((List.range L).map f).getD i 0 = f i := by
  rw [List.getD_eq_getElem?_getD]
  rw [List.getElem?_map]
  rw [List.getElem?_range hi]
  rfl

/-! ## Helpers for the comparator claims -/

theorem getRangeObject_of_parse {s : Str} {p : Parsed} (h : IPBase.parse s = some p) :
    IPBase.getRangeObject s = some (IPBase.parseRange p.parts p.bitLen) := by
  unfold IPBase.getRangeObject
  rw [h]

theorem getRangeObject_of_parse_none {s : Str} (h : IPBase.parse s = none) :
    IPBase.getRangeObject s = none := by
  unfold IPBase.getRangeObject
  rw [h]

theorem compareRanges_length_mismatch {r : RangeObject} {s : Str} {q : RangeObject}
    (hq : IPBase.getRangeObject s = some q)
    (hne : q.first.length ≠ r.first.length) (cmp : Comparator) :
    IPBase.compareRanges r s cmp = some false := by
  unfold IPBase.compareRanges
  rw [hq]
  show compareRangesCore r q cmp = some false
  simp only [compareRangesCore]
  rw [if_pos]
  intro hcontra
  rw [List.all_eq_true] at hcontra
  have := hcontra q.first (by simp)
  exact hne (by simpa using this)

theorem checkEquality_length_mismatch {r : RangeObject} {s : Str} {q : RangeObject}
    (hq : IPBase.getRangeObject s = some q) (hne : r.first.length ≠ q.first.length) :
    IPBase.checkEquality r s = some false := by
  unfold IPBase.checkEquality
  rw [hq]
  show checkEqualityCore r q = some false
  simp only [checkEqualityCore]
  rw [if_pos (Or.inl hne)]

theorem compareRanges_of_none {r : RangeObject} {s : Str}
    (h : IPBase.getRangeObject s = none) (cmp : Comparator) :
    IPBase.compareRanges r s cmp = none := by
  unfold IPBase.compareRanges
  rw [h]

theorem checkEquality_of_none {r : RangeObject} {s : Str}
    (h : IPBase.getRangeObject s = none) :
    IPBase.checkEquality r s = none := by
  unfold IPBase.checkEquality
  rw [h]

theorem getD_all_eq_iff {a b : List Nat} (hlen : a.length = b.length) :
    (((List.range a.length).all fun i => a.getD i 0 == b.getD i 0) = true) ↔ a = b := by
  rw [List.all_eq_true]
  constructor
  · intro h
    apply List.ext_getElem hlen
    intro i h1 h2
    have := h i (List.mem_range.mpr h1)
    rw [beq_iff_eq] at this
    rw [List.getD_eq_getElem?_getD, List.getD_eq_getElem?_getD] at this
    rw [List.getElem?_eq_getElem h1, List.getElem?_eq_getElem h2] at this
    simpa using this
  · rintro rfl
    intro i _
    simp

theorem jsFindIndex_some {p : α → Bool} :
    ∀ {l : List α} {j : Nat}, jsFindIndex p l = some j →
      ∃ a, l[j]? = some a ∧ p a = true := by
  intro l
  induction l with
  | nil => intro j h; simp [jsFindIndex] at h
  | cons a l' ih =>
    intro j h
    simp only [jsFindIndex] at h
    split at h
    · obtain rfl := Option.some.inj h
      exact ⟨a, by simp, by assumption⟩
    · rcases Option.map_eq_some'.mp h with ⟨j', hj', rfl⟩
      rcases ih hj' with ⟨x, hx, hpx⟩
      exact ⟨x, by simpa using hx, hpx⟩

theorem all_eq_false_of_mem {p : α → Bool} {l : List α} {x : α} (hx : x ∈ l)
    (hpx : p x = false) : l.all p = false := by
  cases h : l.all p
  · rfl
  · exact absurd (List.all_eq_true.mp h x hx) (by simp [hpx])

theorem hexDigitVal_le {c : Char} : hexDigitVal c ≤ 15 := by
  unfold hexDigitVal
  split
  · omega
  · split
    · omega
    · split
      · omega
      · omega

theorem foldl_hex_lt {g : Str} :
    ∀ acc : Nat, (g.foldl (fun a c => a * 16 + hexDigitVal c) acc) < (acc + 1) * 16 ^ g.length := by
  induction g with
  | nil => intro acc; simp
  | cons c g' ih =>
    intro acc
    rw [List.foldl_cons]
    refine Nat.lt_of_lt_of_le (ih _) ?_
    rw [List.length_cons, pow_succ]
    have h15 : hexDigitVal c ≤ 15 := hexDigitVal_le
    calc (acc * 16 + hexDigitVal c + 1) * 16 ^ g'.length ≤
        ((acc + 1) * 16) * 16 ^ g'.length := Nat.mul_le_mul_right _ (by omega)
      _ = (acc + 1) * (16 ^ g'.length * 16) := by ring

theorem hexVal_lt (g : Str) : hexVal g < 16 ^ g.length := by
  have := foldl_hex_lt (g := g) 0
  simpa [hexVal] using this

theorem v6val_le {g : Str} (hlen : g.length ≤ 4) : v6val g ≤ 0xffff := by
  unfold v6val
  split
  · omega
  · have h1 : hexVal g < 16 ^ g.length := hexVal_lt g
    have h2 : (16 : Nat) ^ g.length ≤ 16 ^ 4 := Nat.pow_le_pow_right (by omega) hlen
    have : (16 : Nat) ^ 4 = 65536 := by norm_num
    omega

/-! ## The claims -/

/-- C1: the claim says short-mode stringification of any 8-limb array writes
each limb in lowercase hex and collapses exactly the first maximal run of two
or more zero limbs to `::`, leaving every other limb's digits unchanged. The
code violates this: the regex `(?:0:){2,}` may match starting inside a nonzero
limb whose hex ends in `0`. For limbs `[0x10,0,0,1,1,1,1,1]` the claimed text
is `10::1:1:1:1:1`, but the code deletes the trailing `0` of `10` and yields
`1::1:1:1:1:1`, which denotes a different address. The claim's own example
`[0xfd12,0x3456,0x789a,1,0,0,0,0] ↦ fd12:3456:789a:1::` does hold. -/
theorem C1_short_mode_bug :
    IPBase.stringify [0xfd12, 0x3456, 0x789a, 1, 0, 0, 0, 0] []
      { mode := some Mode.short } = ("fd12:3456:789a:1::").toList ∧
    IPBase.stringify [0x10, 0, 0, 1, 1, 1, 1, 1] []
      { mode := some Mode.short } = ("1::1:1:1:1:1").toList ∧
    ("1::1:1:1:1:1").toList ≠ ("10::1:1:1:1:1").toList := by
  exact ⟨by decide, by decide, by decide⟩

/-- C2: the claim says a text with valid hex groups and exactly one `::` (and
no `:::`) parses whenever expanding the `::` to reach 8 groups succeeds, and
gives `1::2:3:4:5:6` as an example. The code expands only when splitting on
`:` yields fewer than 7 fields, so the six-explicit-group case (7 fields, `::`
standing for two zero groups) is rejected: `parse "1::2:3:4:5:6"` is `null`.
Five explicit groups (6 fields) and seven explicit groups (8 fields with one
empty) do parse, confirming the gap is exactly at 7 fields. -/
theorem C2_expansion_bug :
    IPBase.parse (("1::2:3:4:5:6").toList) = none ∧
    IPBase.parse (("1::3:4:5:6").toList) =
      some ⟨[1, 0, 0, 0, 3, 4, 5, 6], none⟩ ∧
    IPBase.parse (("1::2:3:4:5:6:7").toList) =
      some ⟨[1, 0, 2, 3, 4, 5, 6, 7], none⟩ := by
  exact ⟨by decide, by decide, by decide⟩

/-- C5: sanitization is idempotent and sanitized canonical texts round-trip:
a successful parse makes `sanitize` succeed, and whenever `sanitize s = t`,
sanitizing `t` returns `t` itself (so `format ∘ parse` is the identity on the
image of `sanitize`, which is the set of sanitized canonical texts). -/
theorem C5_sanitize_idempotent :
    (∀ (s : Str) (p : Parsed), IPBase.parse s = some p →
      (IPUtil.sanitize s).isSome = true) ∧
    (∀ s t : Str, IPUtil.sanitize s = some t → IPUtil.sanitize t = some t) := by
  constructor
  · intro s p h
    simp [IPUtil.sanitize, IPBase.parseAndStringify, h]
  · intro s t h
    exact sanitize_idempotent h

set_option maxRecDepth 10000 in
/-- Witness for C5 at a concrete input. -/
theorem C5_sanitize_idempotent_witness :
    (IPUtil.sanitize (("fd12:3456:789a:1::1/64").toList)).isSome = true ∧
    IPUtil.sanitize (("fd12:3456:789a:1::1/64").toList) =
      some (("fd12:3456:789a:1:0:0:0:0/64").toList) ∧
    IPUtil.sanitize (("fd12:3456:789a:1:0:0:0:0/64").toList) =
      some (("fd12:3456:789a:1:0:0:0:0/64").toList) :=
  ⟨C5_sanitize_idempotent.1 (("fd12:3456:789a:1::1/64").toList)
      ⟨[0xfd12, 0x3456, 0x789a, 1, 0, 0, 0, 1], some 64⟩ (by decide),
    by decide,
    C5_sanitize_idempotent.2 (("fd12:3456:789a:1::1/64").toList)
      (("fd12:3456:789a:1:0:0:0:0/64").toList) (by decide)⟩

/-- C7: the "all"-style collection queries return the designated empty-input
result `null` (modelled `none`) for an empty array or a non-array value
(modelled by the `none` collection argument), whatever the first argument is,
and this outcome is distinct from both `true` and `false`; in particular
`containsAll("10.0.0.0/8", [])` is `null`, not `true`. -/
theorem C7_all_queries_empty_input (c i e : Str) (arr : Option (List Str))
    (h : arr = none ∨ arr = some []) :
    IPUtil.containsAll c arr = none ∧ IPUtil.isInAllRanges i arr = none ∧
    IPUtil.equalsAll e arr = none ∧
    IPUtil.containsAll (("10.0.0.0/8").toList) (some []) = none ∧
    (∀ b : Bool, IPUtil.containsAll (("10.0.0.0/8").toList) (some []) ≠ some b) := by
  have hc : IPUtil.containsAll (("10.0.0.0/8").toList) (some []) = none := rfl
  rcases h with rfl | rfl
  · exact ⟨rfl, rfl, rfl, hc, fun b => by rw [hc]; simp⟩
  · exact ⟨rfl, rfl, rfl, hc, fun b => by rw [hc]; simp⟩

/-- Witness for C7 at concrete inputs. -/
theorem C7_all_queries_empty_input_witness :
    IPUtil.containsAll (("10.0.0.0/8").toList) (some []) = none ∧
    IPUtil.isInAllRanges (("1.2.3.4").toList) none = none :=
  ⟨(C7_all_queries_empty_input (("10.0.0.0/8").toList) (("1.2.3.4").toList)
      (("1.2.3.4").toList) (some []) (Or.inr rfl)).1,
    (C7_all_queries_empty_input (("10.0.0.0/8").toList) (("1.2.3.4").toList)
      (("1.2.3.4").toList) none (Or.inl rfl)).2.1⟩

theorem parseRange_last_some (parts : List Nat) (b : Nat) :
    (IPBase.parseRange parts (some b)).last =
      mapWithIndex (fun i el => el |||
        ((netMaskParts parts.length b).map fun el => el ^^^
          (if parts.length = 4 then 255 else 0xffff)).getD i 0)
        (IPBase.parseRange parts (some b)).first := rfl

theorem parseRange_mask_formula {parts : List Nat} {N i : Nat}
    (hL : parts.length = 4 ∧ N ≤ 32 ∨ parts.length = 8 ∧ N ≤ 128)
    (hi : i < parts.length) :
    (IPBase.parseRange parts (some N)).first.getD i 0 =
      parts.getD i 0 &&& maskLimb parts.length N i ∧
    (IPBase.parseRange parts (some N)).last.getD i 0 =
      (IPBase.parseRange parts (some N)).first.getD i 0 |||
        (maskLimb parts.length N i ^^^ (if parts.length = 4 then 255 else 0xffff)) := by
  have hnm : netMaskParts parts.length N =
      (List.range parts.length).map (maskLimb parts.length N) := by
    rcases hL with ⟨h4, hN⟩ | ⟨h8, hN⟩
    · rw [h4]
      exact netMaskParts4_eq N (by omega)
    · rw [h8]
      exact netMaskParts8_eq N (by omega)
  constructor
  · rw [parseRange_first_some]
    rw [mapWithIndex_getD _ _ i hi 0 0]
    rw [hnm, getD_map_range hi]
  · rw [parseRange_last_some]
    have hflen : i < (IPBase.parseRange parts (some N)).first.length := by
      rw [parseRange_first_length]
      exact hi
    rw [mapWithIndex_getD _ _ i hflen 0 0]
    rw [hnm, List.map_map]
    rw [show (((List.range parts.length).map
        ((fun el => el ^^^ (if parts.length = 4 then 255 else 0xffff)) ∘
          maskLimb parts.length N))).getD i 0 =
        maskLimb parts.length N i ^^^ (if parts.length = 4 then 255 else 0xffff)
      from getD_map_range hi]

set_option maxRecDepth 10000 in
/-- C3: for every parsed address with parts `p` and explicit prefix length
`N`, the derived range satisfies `first[i] = p[i] AND mask[i]` and
`last[i] = first[i] OR (mask[i] XOR limbMax)` where `mask` is the per-limb
chunking of the netmask with the top `N` bits set (`maskLimb`) and `limbMax`
is 255 for IPv4 and 65535 for IPv6; consequently an inexact CIDR is silently
corrected: sanitizing `fd12:3456:789a:1::1/64` yields
`fd12:3456:789a:1:0:0:0:0/64`. -/
theorem C3_parseRange_netmask (s : Str) (p : Parsed) (N i : Nat)
    (h : IPBase.parse s = some p) (hN : p.bitLen = some N)
    (hi : i < p.parts.length) :
    ((IPBase.parseRange p.parts p.bitLen).first.getD i 0 =
        p.parts.getD i 0 &&& maskLimb p.parts.length N i ∧
      (IPBase.parseRange p.parts p.bitLen).last.getD i 0 =
        (IPBase.parseRange p.parts p.bitLen).first.getD i 0 |||
          (maskLimb p.parts.length N i ^^^
            (if p.parts.length = 4 then 255 else 0xffff))) ∧
    IPUtil.sanitize (("fd12:3456:789a:1::1/64").toList) =
      some (("fd12:3456:789a:1:0:0:0:0/64").toList) := by
  have hL : p.parts.length = 4 ∧ N ≤ 32 ∨ p.parts.length = 8 ∧ N ≤ 128 := by
    rcases parse_shape h with ⟨h4, _, hok⟩ | ⟨h8, _, hok⟩
    · rw [hN] at hok
      simp only [bitLenOk, decide_eq_true_eq] at hok
      exact Or.inl ⟨h4, hok⟩
    · rw [hN] at hok
      simp only [bitLenOk, decide_eq_true_eq] at hok
      exact Or.inr ⟨h8, hok⟩
  rw [hN]
  exact ⟨parseRange_mask_formula hL hi, by decide⟩

set_option maxRecDepth 10000 in
/-- Witness for C3 at a concrete input (`10.0.0.0/8`, limb 1). -/
theorem C3_parseRange_netmask_witness :
    IPBase.parse (("10.0.0.0/8").toList) = some ⟨[10, 0, 0, 0], some 8⟩ ∧
    ((IPBase.parseRange [10, 0, 0, 0] (some 8)).first.getD 1 0 =
        ([10, 0, 0, 0] : List Nat).getD 1 0 &&& maskLimb 4 8 1 ∧
      (IPBase.parseRange [10, 0, 0, 0] (some 8)).last.getD 1 0 =
        (IPBase.parseRange [10, 0, 0, 0] (some 8)).first.getD 1 0 |||
          (maskLimb 4 8 1 ^^^ 255)) :=
  ⟨by decide, by
    have := C3_parseRange_netmask (("10.0.0.0/8").toList) ⟨[10, 0, 0, 0], some 8⟩ 8 1
      (by decide) rfl (by decide)
    simpa using this.1⟩

/-- C4 counterexample: under the code's equality, the bare address
`192.168.1.1` IS equal to `192.168.1.1/32` — `equals` returns `true`, because
a bare IPv4 address is normalized to bit length 32, so the prefix lengths
match; the claim asserts the opposite. -/
theorem C4_counterexample :
    IPUtil.equals (("192.168.1.1").toList) (("192.168.1.1/32").toList) = some true := by
  decide

/-- C4 (amended): equality compares limb counts, exact `bitLen` and the
`first` array, never `last` — but a bare address carries the normalized bit
length 32 or 128, so `192.168.1.1` (bare) and `192.168.1.1/32` compare equal
and `equals` returns `true` on this pair (the claim as stated asserted it
does not). -/
theorem C4_equality_semantics (r : RangeObject) (s : Str) (q : RangeObject)
    (hq : IPBase.getRangeObject s = some q) :
    (IPBase.checkEquality r s = some true ↔
      r.first.length = q.first.length ∧ r.bitLen = q.bitLen ∧ r.first = q.first) ∧
    (∀ l₁ l₂ c₁ c₂, IPBase.checkEquality ⟨r.first, l₁, r.bitLen, c₁⟩ s =
      IPBase.checkEquality ⟨r.first, l₂, r.bitLen, c₂⟩ s) ∧
    IPUtil.equals (("192.168.1.1").toList) (("192.168.1.1/32").toList) = some true := by
  refine ⟨?_, ?_, by decide⟩
  · unfold IPBase.checkEquality
    rw [hq]
    show checkEqualityCore r q = some true ↔ _
    simp only [checkEqualityCore]
    by_cases hcond : r.first.length ≠ q.first.length ∨ r.bitLen ≠ q.bitLen
    · rw [if_pos hcond]
      constructor
      · intro hcontra
        exact absurd (Option.some.inj hcontra) (by simp)
      · rintro ⟨h1, h2, h3⟩
        exact absurd hcond (by simp [h1, h2])
    · rw [if_neg hcond]
      push_neg at hcond
      obtain ⟨hlen, hbl⟩ := hcond
      constructor
      · intro hall
        exact ⟨hlen, hbl, (getD_all_eq_iff hlen).mp (Option.some.inj hall)⟩
      · rintro ⟨_, _, hfirst⟩
        exact congrArg some ((getD_all_eq_iff hlen).mpr hfirst)
  · intro l₁ l₂ c₁ c₂
    unfold IPBase.checkEquality
    rw [hq]
    rfl

/-- Witness for C4's amended statement at a concrete input. -/
theorem C4_equality_semantics_witness :
    IPBase.checkEquality (IPBase.parseRange [192, 168, 1, 1] none)
      (("192.168.1.1/32").toList) = some true ∧
    IPUtil.equals (("192.168.1.1").toList) (("192.168.1.1/32").toList) = some true := by
  have h := C4_equality_semantics (IPBase.parseRange [192, 168, 1, 1] none)
    (("192.168.1.1/32").toList) (IPBase.parseRange [192, 168, 1, 1] (some 32))
    (by decide)
  exact ⟨h.1.mpr (by decide), h.2.2⟩

/-- C6: for every valid IPv4 input and valid IPv6 input, in either order, the
relational queries `isInRange`, `contains`, `equals` and `compareRanges`
return `false` — never `null` (and, the embedding being total, never an
error): cross-family comparisons are defined non-matches. -/
theorem C6_cross_family (s4 s6 : Str) (p4 p6 : Parsed)
    (h4 : IPBase.parse s4 = some p4) (hl4 : p4.parts.length = 4)
    (h6 : IPBase.parse s6 = some p6) (hl6 : p6.parts.length = 8) :
    IPUtil.isInRange s4 s6 = some false ∧ IPUtil.isInRange s6 s4 = some false ∧
    IPUtil.contains s4 s6 = some false ∧ IPUtil.contains s6 s4 = some false ∧
    IPUtil.equals s4 s6 = some false ∧ IPUtil.equals s6 s4 = some false ∧
    ∀ cmp : Comparator,
      IPBase.compareRanges (IPBase.parseRange p4.parts p4.bitLen) s6 cmp = some false ∧
      IPBase.compareRanges (IPBase.parseRange p6.parts p6.bitLen) s4 cmp = some false := by
  have hr4 := getRangeObject_of_parse h4
  have hr6 := getRangeObject_of_parse h6
  have hlen4 : (IPBase.parseRange p4.parts p4.bitLen).first.length = 4 := by
    rw [parseRange_first_length]; exact hl4
  have hlen6 : (IPBase.parseRange p6.parts p6.bitLen).first.length = 8 := by
    rw [parseRange_first_length]; exact hl6
  have hcmp46 : ∀ cmp, IPBase.compareRanges (IPBase.parseRange p4.parts p4.bitLen) s6 cmp =
      some false := fun cmp =>
    compareRanges_length_mismatch hr6 (by rw [hlen4, hlen6]; omega) cmp
  have hcmp64 : ∀ cmp, IPBase.compareRanges (IPBase.parseRange p6.parts p6.bitLen) s4 cmp =
      some false := fun cmp =>
    compareRanges_length_mismatch hr4 (by rw [hlen4, hlen6]; omega) cmp
  refine ⟨?_, ?_, ?_, ?_, ?_, ?_, fun cmp => ⟨hcmp46 cmp, hcmp64 cmp⟩⟩
  · unfold IPUtil.isInRange
    rw [hr4]
    exact hcmp46 .lt
  · unfold IPUtil.isInRange
    rw [hr6]
    exact hcmp64 .lt
  · unfold IPUtil.contains
    rw [hr4]
    exact hcmp46 .gt
  · unfold IPUtil.contains
    rw [hr6]
    exact hcmp64 .gt
  · unfold IPUtil.equals
    rw [hr4]
    exact checkEquality_length_mismatch hr6 (by rw [hlen4, hlen6]; omega)
  · unfold IPUtil.equals
    rw [hr6]
    exact checkEquality_length_mismatch hr4 (by rw [hlen4, hlen6]; omega)

/-- Witness for C6 at concrete inputs. -/
theorem C6_cross_family_witness :
    IPUtil.isInRange (("1.2.3.4").toList) (("1:2:3:4:5:6:7:8").toList) = some false ∧
    IPUtil.equals (("1:2:3:4:5:6:7:8").toList) (("1.2.3.4").toList) = some false := by
  have h := C6_cross_family (("1.2.3.4").toList) (("1:2:3:4:5:6:7:8").toList)
    ⟨[1, 2, 3, 4], none⟩ ⟨[1, 2, 3, 4, 5, 6, 7, 8], none⟩
    (by decide) (by decide) (by decide) (by decide)
  exact ⟨h.1, h.2.2.2.2.2.1⟩

/-- C10: in every collection query a non-address element is a non-match, not
an error: with a valid subject, the "any" queries never return `null` and
never return the index of an invalid element, and the "all" queries on a
non-empty array containing an invalid element return `false` (never `null`). -/
theorem C10_invalid_elements (s bad : Str) (arr : List Str) (j : Nat) (r : RangeObject)
    (hs : IPBase.getRangeObject s = some r) (hj : arr[j]? = some bad)
    (hbad : IPBase.parse bad = none) :
    ((IPUtil.isInAnyRange s arr).isSome = true ∧
      IPUtil.isInAnyRange s arr ≠ some (some j)) ∧
    ((IPUtil.containsAny s arr).isSome = true ∧
      IPUtil.containsAny s arr ≠ some (some j)) ∧
    ((IPUtil.equalsAny s arr).isSome = true ∧
      IPUtil.equalsAny s arr ≠ some (some j)) ∧
    IPUtil.isInAllRanges s (some arr) = some false ∧
    IPUtil.containsAll s (some arr) = some false ∧
    IPUtil.equalsAll s (some arr) = some false := by
  have hbadr := getRangeObject_of_parse_none hbad
  have hmem : bad ∈ arr := by
    rcases List.getElem?_eq_some_iff.mp hj with ⟨hlt, hget⟩
    exact hget ▸ List.getElem_mem hlt
  have hne : arr.isEmpty = false := by
    rcases arr with _ | ⟨a, arr'⟩
    · simp at hj
    · rfl
  have hcmpbad : ∀ cmp, (IPBase.compareRanges r bad cmp).getD false = false := fun cmp => by
    rw [compareRanges_of_none hbadr]
    rfl
  have heqbad : (IPBase.checkEquality r bad).getD false = false := by
    rw [checkEquality_of_none hbadr]
    rfl
  have hany : ∀ p : Str → Bool, p bad = false →
      jsFindIndex p arr ≠ some j := by
    intro p hp hcontra
    rcases jsFindIndex_some hcontra with ⟨a, ha, hpa⟩
    rw [hj] at ha
    obtain rfl := Option.some.inj ha
    rw [hp] at hpa
    exact absurd hpa (by simp)
  refine ⟨?_, ?_, ?_, ?_, ?_, ?_⟩
  · unfold IPUtil.isInAnyRange
    rw [hs]
    exact ⟨rfl, fun hcontra => hany _ (hcmpbad .lt) (Option.some.inj hcontra)⟩
  · unfold IPUtil.containsAny
    rw [hs]
    exact ⟨rfl, fun hcontra => hany _ (hcmpbad .gt) (Option.some.inj hcontra)⟩
  · unfold IPUtil.equalsAny
    rw [hs]
    exact ⟨rfl, fun hcontra => hany _ heqbad (Option.some.inj hcontra)⟩
  · unfold IPUtil.isInAllRanges
    show (if arr.isEmpty = true then none
      else match IPBase.getRangeObject s with
        | none => none
        | some ip =>
          some (arr.all fun cidr => (IPBase.compareRanges ip cidr Comparator.lt).getD false)) =
      some false
    rw [hne, if_neg (by simp), hs]
    show some (arr.all fun cidr => (IPBase.compareRanges r cidr Comparator.lt).getD false) =
      some false
    rw [all_eq_false_of_mem hmem (hcmpbad .lt)]
  · unfold IPUtil.containsAll
    show (if arr.isEmpty = true then none
      else match IPBase.getRangeObject s with
        | none => none
        | some cidr =>
          some (arr.all fun ip => (IPBase.compareRanges cidr ip Comparator.gt).getD false)) =
      some false
    rw [hne, if_neg (by simp), hs]
    show some (arr.all fun ip => (IPBase.compareRanges r ip Comparator.gt).getD false) =
      some false
    rw [all_eq_false_of_mem hmem (hcmpbad .gt)]
  · unfold IPUtil.equalsAll
    show (if arr.isEmpty = true then none
      else match IPBase.getRangeObject s with
        | none => none
        | some ip1 =>
          some (arr.all fun ip2 => (IPBase.checkEquality ip1 ip2).getD false)) =
      some false
    rw [hne, if_neg (by simp), hs]
    show some (arr.all fun ip2 => (IPBase.checkEquality r ip2).getD false) = some false
    rw [all_eq_false_of_mem hmem heqbad]

/-- Witness for C10 at concrete inputs. -/
theorem C10_invalid_elements_witness :
    IPUtil.isInAnyRange (("1.2.3.4").toList) [("foo").toList, ("1.0.0.0/8").toList] =
      some (some 1) ∧
    IPUtil.isInAnyRange (("1.2.3.4").toList) [("foo").toList, ("1.0.0.0/8").toList] ≠
      some (some 0) ∧
    IPUtil.containsAll (("10.0.0.0/8").toList)
      (some [("foo").toList, ("10.1.2.3").toList]) = some false := by
  have h := C10_invalid_elements (("1.2.3.4").toList) (("foo").toList)
    [("foo").toList, ("1.0.0.0/8").toList] 0
    (IPBase.parseRange [1, 2, 3, 4] none) (by decide) (by decide) (by decide)
  have h2 := C10_invalid_elements (("10.0.0.0/8").toList) (("foo").toList)
    [("foo").toList, ("10.1.2.3").toList] 0
    (IPBase.parseRange [10, 0, 0, 0] (some 8)) (by decide) (by decide) (by decide)
  exact ⟨by decide, h.1.2, h2.2.2.2.2.1⟩

/-! ## C8: the claimed IPv4 shape -/

/-- An optional `/digits` suffix rendered as text. -/
def optSlash : Option Str → Str
  | none => []
  | some d => '/' :: d

/-- Stated from the words of claim C8 (the claim-side reference shape, to be
compared with the source-side parser): "four dot-separated decimal groups,
each 1–3 digits with numeric value 0–255, with an optional '/digits'
suffix". -/
def claimV4Shape (s : Str) : Prop :=
  ∃ g1 g2 g3 g4 : Str, ∃ suf : Option Str,
    s = joinSep '.' [g1, g2, g3, g4] ++ optSlash suf ∧
    (∀ g ∈ [g1, g2, g3, g4], 1 ≤ g.length ∧ g.length ≤ 3 ∧
      (∀ c ∈ g, isDigit c = true) ∧ decVal g ≤ 255) ∧
    (∀ d, suf = some d → 1 ≤ d.length ∧ ∀ c ∈ d, isDigit c = true)

/-- The shape of claim C8 amended with the prefix-length bound the code
enforces: the suffix's numeric value must be at most 32. -/
def claimV4ShapeBounded (s : Str) : Prop :=
  ∃ g1 g2 g3 g4 : Str, ∃ suf : Option Str,
    (s = joinSep '.' [g1, g2, g3, g4] ++ optSlash suf ∧
      (∀ g ∈ [g1, g2, g3, g4], 1 ≤ g.length ∧ g.length ≤ 3 ∧
        (∀ c ∈ g, isDigit c = true) ∧ decVal g ≤ 255) ∧
      (∀ d, suf = some d → 1 ≤ d.length ∧ ∀ c ∈ d, isDigit c = true)) ∧
    (∀ d, suf = some d → decVal d ≤ 32)

theorem parseV4_inv {gs : List Str} {suf : Option Str} {p : Parsed}
    (h : parseV4 gs suf = some p) :
    bitLenOk 32 (suf.map decVal) = true ∧ limbsV4 gs = some p.parts ∧
      p.bitLen = suf.map decVal := by
  simp only [parseV4] at h
  split at h
  · rename_i hok
    split at h
    · rename_i parts hl
      obtain rfl := Option.some.inj h
      exact ⟨hok, hl, rfl⟩
    · exact absurd h (by simp)
  · exact absurd h (by simp)

theorem v4Addr_inv {addr : Str} {gs : List Str} (h : v4Addr addr = some gs) :
    ∃ g1 g2 g3 g4, gs = [g1, g2, g3, g4] ∧
      GoodGroups isDigit gs ∧ addr = joinSep '.' [g1, g2, g3, g4] := by
  unfold v4Addr at h
  split at h
  · rename_i g1 g2 g3 g4 heq
    split at h
    · rename_i hcond
      obtain rfl := Option.some.inj h
      obtain ⟨⟨h1ne, h1d⟩, ⟨h2ne, h2d⟩, ⟨h3ne, h3d⟩, ⟨h4ne, h4d⟩⟩ := hcond
      refine ⟨g1, g2, g3, g4, rfl, ?_, ?_⟩
      · intro g hg
        simp only [List.mem_cons, List.not_mem_nil, or_false] at hg
        rcases hg with rfl | rfl | rfl | rfl
        · exact ⟨h1ne, List.all_eq_true.mp h1d⟩
        · exact ⟨h2ne, List.all_eq_true.mp h2d⟩
        · exact ⟨h3ne, List.all_eq_true.mp h3d⟩
        · exact ⟨h4ne, List.all_eq_true.mp h4d⟩
      · rw [← joinSep_splitOnChar '.' addr, heq]
    · exact absurd h (by simp)
  · exact absurd h (by simp)

theorem v4Match_inv {s : Str} {gs : List Str} {suf : Option Str}
    (h : v4Match s = some (gs, suf)) :
    ∃ g1 g2 g3 g4, gs = [g1, g2, g3, g4] ∧ GoodGroups isDigit gs ∧
      (∀ d, suf = some d → d ≠ [] ∧ ∀ c ∈ d, isDigit c = true) ∧
      s = joinSep '.' [g1, g2, g3, g4] ++ optSlash suf := by
  unfold v4Match at h
  split at h
  · rename_i addr heq
    rcases Option.map_eq_some'.mp h with ⟨gs', hga, hpair⟩
    injection hpair with hh1 hh2
    subst hh1
    subst hh2
    rcases v4Addr_inv hga with ⟨g1, g2, g3, g4, rfl, hgood, haddr⟩
    refine ⟨g1, g2, g3, g4, rfl, hgood, by simp, ?_⟩
    have hsaddr : s = addr := by
      rw [← joinSep_splitOnChar '/' s, heq]
      rfl
    rw [hsaddr, haddr]
    simp [optSlash]
  · rename_i addr d heq
    split at h
    · rename_i hdcond
      rcases Option.map_eq_some'.mp h with ⟨gs', hga, hpair⟩
      injection hpair with hh1 hh2
      subst hh1
      subst hh2
      rcases v4Addr_inv hga with ⟨g1, g2, g3, g4, rfl, hgood, haddr⟩
      refine ⟨g1, g2, g3, g4, rfl, hgood, ?_, ?_⟩
      · intro d' hd'
        obtain rfl := Option.some.inj hd'.symm
        exact ⟨hdcond.1, List.all_eq_true.mp hdcond.2⟩
      · have hsaddr : s = addr ++ '/' :: d := by
          rw [← joinSep_splitOnChar '/' s, heq]
          rfl
        rw [hsaddr, haddr]
        rfl
    · exact absurd h (by simp)
  · exact absurd h (by simp)

/-- C8 counterexample: `1.2.3.4/33` has exactly the claimed shape (four valid
decimal groups plus a `/digits` suffix) yet the parse rejects it, because the
prefix length 33 exceeds 32 — a bound absent from the claim's iff. -/
theorem C8_counterexample :
    claimV4Shape (("1.2.3.4/33").toList) ∧
      IPBase.parse (("1.2.3.4/33").toList) = none := by
  constructor
  · refine ⟨['1'], ['2'], ['3'], ['4'], some ['3', '3'], by decide, by decide, ?_⟩
    intro d hd
    obtain rfl := Option.some.inj hd.symm
    exact ⟨by decide, by decide⟩
  · decide

/-- C8 (amended): for texts already free of surrounding whitespace and bidi
characters (i.e. fixed by `clean`), IPv4 parsing accepts exactly the texts of
the claimed shape whose optional `/digits` suffix has numeric value at most
32; any group out of bounds fails the whole parse, so `256.0.0.1` is invalid
while `192.168.001.001` is valid and sanitizes to `192.168.1.1`. -/
theorem C8_v4_accept_iff (s : Str) (hclean : IPBase.clean s = s) :
    ((∃ p, IPBase.parse s = some p ∧ p.parts.length = 4) ↔ claimV4ShapeBounded s) ∧
    IPBase.parse (("256.0.0.1").toList) = none ∧
    IPUtil.sanitize (("192.168.001.001").toList) = some (("192.168.1.1").toList) := by
  refine ⟨?_, by decide, by decide⟩
  constructor
  · rintro ⟨p, hp, hl4⟩
    simp only [IPBase.parse, hclean] at hp
    rcases hm : v4Match s with _ | ⟨gs, suf⟩
    · rw [hm] at hp
      have h8 := (parseV6_shape hp).1
      omega
    · rw [hm] at hp
      obtain ⟨hok, hl, hbl⟩ := parseV4_inv hp
      obtain ⟨g1, g2, g3, g4, rfl, hgood, hsufdig, hs⟩ := v4Match_inv hm
      obtain ⟨hparts, hall⟩ := limbsV4_eq_some.mp hl
      refine ⟨g1, g2, g3, g4, suf, ⟨hs, ?_, ?_⟩, ?_⟩
      · intro g hg
        have h1 : g ≠ [] := (hgood g hg).1
        refine ⟨?_, (hall g hg).1, (hgood g hg).2, (hall g hg).2⟩
        have := List.length_pos.mpr h1
        omega
      · intro d hd
        have h1 := (hsufdig d hd).1
        have := List.length_pos.mpr h1
        exact ⟨by omega, (hsufdig d hd).2⟩
      · intro d hd
        rw [hd] at hok
        simpa [bitLenOk, decVal] using hok
  · rintro ⟨g1, g2, g3, g4, suf, ⟨hs, hgroups, hsuf⟩, hbound⟩
    subst hs
    have hgood : GoodGroups isDigit [g1, g2, g3, g4] := by
      intro g hg
      refine ⟨?_, (hgroups g hg).2.2.1⟩
      have := (hgroups g hg).1
      exact List.length_pos.mp (by omega)
    have hlimbs : limbsV4 [g1, g2, g3, g4] = some ([g1, g2, g3, g4].map decVal) :=
      limbsV4_eq_some.mpr ⟨rfl, fun g hg => ⟨(hgroups g hg).2.1, (hgroups g hg).2.2.2⟩⟩
    rcases suf with _ | d
    · refine ⟨⟨[g1, g2, g3, g4].map decVal, none⟩, ?_, by simp⟩
      simp only [IPBase.parse, hclean]
      rw [show optSlash none = [] from rfl, List.append_nil]
      rw [v4Match_canonical_none hgood]
      show parseV4 [g1, g2, g3, g4] none = _
      simp only [parseV4, Option.map_none', bitLenOk, hlimbs]
      rfl
    · have hd := hsuf d rfl
      have hdne : d ≠ [] := List.length_pos.mp (by omega)
      refine ⟨⟨[g1, g2, g3, g4].map decVal, some (decVal d)⟩, ?_, by simp⟩
      simp only [IPBase.parse, hclean]
      rw [show optSlash (some d) = '/' :: d from rfl]
      rw [v4Match_canonical_some hgood hdne hd.2]
      show parseV4 [g1, g2, g3, g4] (some d) = _
      simp only [parseV4, Option.map_some']
      rw [if_pos (by simp only [bitLenOk, decide_eq_true_eq]; exact hbound d rfl)]
      rw [hlimbs]

/-- Witness for C8's amended statement at a concrete input. -/
theorem C8_v4_accept_iff_witness :
    IPBase.clean (("10.0.0.1/8").toList) = ("10.0.0.1/8").toList ∧
    claimV4ShapeBounded (("10.0.0.1/8").toList) ∧
    (∃ p, IPBase.parse (("10.0.0.1/8").toList) = some p ∧ p.parts.length = 4) := by
  have hshape : claimV4ShapeBounded (("10.0.0.1/8").toList) := by
    refine ⟨['1', '0'], ['0'], ['0'], ['1'], some ['8'], ⟨by decide, by decide, ?_⟩, ?_⟩
    · intro d hd
      obtain rfl := Option.some.inj hd.symm
      exact ⟨by decide, by decide⟩
    · intro d hd
      obtain rfl := Option.some.inj hd.symm
      decide
  exact ⟨by decide, hshape,
    (C8_v4_accept_iff (("10.0.0.1/8").toList) (by decide)).1.mpr hshape⟩

/-- C9: IPv6 parsing accepts strings with a single empty hex group not
written as `::` (a lone leading or trailing colon, e.g. `:1:2:3:4:5:6:7` or
`1:2:3:4:5:6:7:`) whenever splitting on `:` yields exactly 8 fields of valid
hex groups; the empty field is treated as the limb 0, so such strings parse
to a full 8-limb address instead of being rejected. -/
theorem C9_single_empty_group (s : Str)
    (hfields8 : (splitOnChar ':' s).length = 8)
    (hgroups : ∀ g ∈ splitOnChar ':' s, g.length ≤ 4 ∧ ∀ c ∈ g, isHexDigit c = true)
    (_hone : ((splitOnChar ':' s).countP fun g => g.isEmpty) = 1)
    (hnodc : hasDoubleColon s = false) :
    IPBase.parse s = some ⟨(splitOnChar ':' s).map v6val, none⟩ := by
  have hjoin : joinSep ':' (splitOnChar ':' s) = s := joinSep_splitOnChar ':' s
  have hmemchar : ∀ c ∈ s, c = ':' ∨ isHexDigit c = true := by
    intro c hc
    rw [← hjoin] at hc
    rcases mem_joinSep hc with rfl | ⟨g, hg, hm⟩
    · exact Or.inl rfl
    · exact Or.inr ((hgroups g hg).2 c hm)
  have hplain : ∀ c ∈ s, isPlain c = true := by
    intro c hc
    rcases hmemchar c hc with rfl | hhex
    · decide
    · exact isPlain_of_isHexDigit hhex
  have hnoslash : '/' ∉ s := by
    intro hm
    rcases hmemchar '/' hm with h' | h'
    · exact absurd h' (by decide)
    · exact absurd h' (by decide)
  have hnodot : '.' ∉ s := by
    intro hm
    rcases hmemchar '.' hm with h' | h'
    · exact absurd h' (by decide)
    · exact absurd h' (by decide)
  have hsne : s ≠ [] := by
    intro hnil
    rw [hnil] at hfields8
    simp [splitOnChar] at hfields8
  simp only [IPBase.parse]
  rw [clean_eq_self_of_plain hplain]
  have hv4 : v4Match s = none := by
    unfold v4Match
    rw [splitOnChar_not_mem hnoslash]
    show (v4Addr s).map (fun gs => (gs, (none : Option Str))) = none
    rw [show v4Addr s = none from by
      unfold v4Addr
      rw [splitOnChar_not_mem hnodot]]
    rfl
  rw [hv4]
  show parseV6 s = _
  unfold parseV6
  rw [show v6Match s = some (s, none) from by
    unfold v6Match
    rw [splitOnChar_not_mem hnoslash]
    show (if s ≠ [] ∧ s.all isHexOrColon then some (s, (none : Option Str)) else none) =
      some (s, none)
    rw [if_pos ⟨hsne, List.all_eq_true.mpr fun c hc => by
      rcases hmemchar c hc with rfl | hhex
      · decide
      · simp [isHexOrColon, hhex]⟩]]
  show (if hasTripleColon s = true ∨ ¬ doubleColonCount s < 2 then none
    else parseV6Core s ((none : Option Str).map decVal)) = _
  rw [if_neg (by rw [hasTripleColon_of_hdc hnodc, doubleColonCount_eq_zero hnodc]; decide)]
  show parseV6Core s none = _
  have hlimbs : limbsV6 (splitOnChar ':' s) = some ((splitOnChar ':' s).map v6val) :=
    limbsV6_eq_some.mpr ⟨rfl, fun el hel =>
      ⟨(hgroups el hel).1, v6val_le (hgroups el hel).1⟩⟩
  simp only [parseV6Core, bitLenOk, hfields8, hlimbs]
  norm_num
  exact ⟨hfields8, by rw [hlimbs]⟩

/-- Witness for C9 at a concrete input (leading lone colon). -/
theorem C9_single_empty_group_witness :
    IPBase.parse ((":1:2:3:4:5:6:7").toList) =
      some ⟨[0, 1, 2, 3, 4, 5, 6, 7], none⟩ := by
  have h := C9_single_empty_group ((":1:2:3:4:5:6:7").toList)
    (by decide) (by decide) (by decide) (by decide)
  rw [h]
  decide

end IpWiki
